import Mathlib

/-!
# URL shortener store: a shallow embedding of `urlstore.go`

The development embeds the key-value store of the URL shortener:

* `genKey` with a model of `crypto/sha256.Sum256` and of the `%x` rendering;
* the store operations `Get`, `Set`, `Count`, `Put` on an explicit state
  (the map `urls` and the channel `saver`);
* the log format: a model of `encoding/json` for the `record` type, the
  writer `saveLoop` and the loader `load`.

Go strings are embedded as Lean strings and the content of the log file as a
sequence of characters, that is as sequences of Unicode scalar values: a Go
string or a file that is not valid UTF-8 has no counterpart in the model. `Put`
accepts such a URL, and the encoder then writes the replacement character for its
bytes; what the development proves of encoded URLs is about valid UTF-8.
The reader/writer lock makes each store operation atomic; the embedding gives
every operation as a function on the state, and runs are interleavings of such
atomic steps.
-/

namespace URLShortener

/-! ## `crypto/sha256` (FIPS 180-4) on 32-bit words held in `Nat` -/

namespace SHA256

/-- Truncation to a 32-bit word. -/
def mask32 (x : Nat) : Nat := x % 4294967296

/-- Rotation of a 32-bit word to the right by `n` bits. -/
def rotr (n x : Nat) : Nat := mask32 ((x >>> n) ||| (x <<< (32 - n)))

/-- The function Σ0 of the compression function. -/
def bsig0 (x : Nat) : Nat := rotr 2 x ^^^ rotr 13 x ^^^ rotr 22 x

/-- The function Σ1 of the compression function. -/
def bsig1 (x : Nat) : Nat := rotr 6 x ^^^ rotr 11 x ^^^ rotr 25 x

/-- The function σ0 of the message schedule. -/
def ssig0 (x : Nat) : Nat := rotr 7 x ^^^ rotr 18 x ^^^ (x >>> 3)

/-- The function σ1 of the message schedule. -/
def ssig1 (x : Nat) : Nat := rotr 17 x ^^^ rotr 19 x ^^^ (x >>> 10)

/-- The choice function, on 32-bit words. -/
def ch (x y z : Nat) : Nat := (x &&& y) ^^^ ((4294967295 - x) &&& z)

/-- The majority function. -/
def maj (x y z : Nat) : Nat := (x &&& y) ^^^ (x &&& z) ^^^ (y &&& z)

/-- The round constants. -/
def K : List Nat := [
  0x428a2f98, 0x71374491, 0xb5c0fbcf, 0xe9b5dba5, 0x3956c25b, 0x59f111f1, 0x923f82a4, 0xab1c5ed5,
  0xd807aa98, 0x12835b01, 0x243185be, 0x550c7dc3, 0x72be5d74, 0x80deb1fe, 0x9bdc06a7, 0xc19bf174,
  0xe49b69c1, 0xefbe4786, 0x0fc19dc6, 0x240ca1cc, 0x2de92c6f, 0x4a7484aa, 0x5cb0a9dc, 0x76f988da,
  0x983e5152, 0xa831c66d, 0xb00327c8, 0xbf597fc7, 0xc6e00bf3, 0xd5a79147, 0x06ca6351, 0x14292967,
  0x27b70a85, 0x2e1b2138, 0x4d2c6dfc, 0x53380d13, 0x650a7354, 0x766a0abb, 0x81c2c92e, 0x92722c85,
  0xa2bfe8a1, 0xa81a664b, 0xc24b8b70, 0xc76c51a3, 0xd192e819, 0xd6990624, 0xf40e3585, 0x106aa070,
  0x19a4c116, 0x1e376c08, 0x2748774c, 0x34b0bcb5, 0x391c0cb3, 0x4ed8aa4a, 0x5b9cca4f, 0x682e6ff3,
  0x748f82ee, 0x78a5636f, 0x84c87814, 0x8cc70208, 0x90befffa, 0xa4506ceb, 0xbef9a3f7, 0xc67178f2]

/-- The eight working variables, also the chaining value. -/
structure Digest where
  a : Nat
  b : Nat
  c : Nat
  d : Nat
  e : Nat
  f : Nat
  g : Nat
  h : Nat

/-- The initial hash value. -/
def init : Digest :=
  ⟨0x6a09e667, 0xbb67ae85, 0x3c6ef372, 0xa54ff53a, 0x510e527f, 0x9b05688c, 0x1f83d9ab, 0x5be0cd19⟩

/-- Big-endian 32-bit words of a byte sequence. -/
def words : List Nat → List Nat
  | a :: b :: c :: d :: rest => (a * 16777216 + b * 65536 + c * 256 + d) :: words rest
  | _ => []

/-- The next `n` words of the message schedule; `w` holds the last sixteen words. -/
def schedule : Nat → List Nat → List Nat
  | 0, _ => []
  | n + 1, w =>
    let x := mask32 (ssig1 (w.getD 14 0) + w.getD 9 0 + ssig0 (w.getD 1 0) + w.getD 0 0)
    x :: schedule n (w.drop 1 ++ [x])

/-- One round, on the round constant and the schedule word. -/
def round (s : Digest) (kw : Nat × Nat) : Digest :=
  let t1 := s.h + bsig1 s.e + ch s.e s.f s.g + kw.1 + kw.2
  let t2 := bsig0 s.a + maj s.a s.b s.c
  ⟨mask32 (t1 + t2), s.a, s.b, s.c, mask32 (s.d + t1), s.e, s.f, s.g⟩

/-- The compression function on one 64-byte block. -/
def compress (h : Digest) (block : List Nat) : Digest :=
  let w16 := words block
  let s := (K.zip (w16 ++ schedule 48 w16)).foldl round h
  ⟨mask32 (h.a + s.a), mask32 (h.b + s.b), mask32 (h.c + s.c), mask32 (h.d + s.d),
   mask32 (h.e + s.e), mask32 (h.f + s.f), mask32 (h.g + s.g), mask32 (h.h + s.h)⟩

/-- The `k` low bytes of `n`, most significant first. -/
def bigEndian (n : Nat) : Nat → List Nat
  | 0 => []
  | k + 1 => (n / 256 ^ k) % 256 :: bigEndian n k

/-- Padding: a one bit, zeros, and the bit length on eight bytes. -/
def pad (msg : List Nat) : List Nat :=
  msg ++ 0x80 :: List.replicate ((119 - msg.length % 64) % 64) 0 ++ bigEndian (8 * msg.length) 8

/-- Compression over `n` consecutive blocks. -/
def blocks : Nat → Digest → List Nat → Digest
  | 0, h, _ => h
  | n + 1, h, bs => blocks n (compress h (bs.take 64)) (bs.drop 64)

/-- The digest as its 32 bytes. -/
def Digest.bytes (s : Digest) : List Nat :=
  bigEndian s.a 4 ++ bigEndian s.b 4 ++ bigEndian s.c 4 ++ bigEndian s.d 4 ++
  bigEndian s.e 4 ++ bigEndian s.f 4 ++ bigEndian s.g 4 ++ bigEndian s.h 4

/-- Model of `sha256.Sum256`: the 32-byte digest of a byte sequence. -/
def Sum256 (msg : List Nat) : List Nat :=
  (blocks ((pad msg).length / 64) init (pad msg)).bytes

end SHA256

/-! ## Strings as bytes, and `%x` -/

/-- The UTF-8 encoding of a character: the bytes of `[]byte(url)`. -/
def utf8Bytes (c : Char) : List Nat :=
  if c.toNat < 0x80 then [c.toNat]
  else if c.toNat < 0x800 then [0xC0 + c.toNat / 64, 0x80 + c.toNat % 64]
  else if c.toNat < 0x10000 then
    [0xE0 + c.toNat / 4096, 0x80 + c.toNat / 64 % 64, 0x80 + c.toNat % 64]
  else [0xF0 + c.toNat / 262144, 0x80 + c.toNat / 4096 % 64, 0x80 + c.toNat / 64 % 64,
    0x80 + c.toNat % 64]

/-- A lowercase hexadecimal digit. -/
def hexDigit (n : Nat) : Char :=
  if n < 10 then Char.ofNat (48 + n) else Char.ofNat (87 + n)

/-- The verb `%x` on a byte array: two lowercase digits for each byte. -/
def hexString : List Nat → List Char
  | [] => []
  | b :: bs => hexDigit (b / 16) :: hexDigit (b % 16) :: hexString bs

/-- `genKey`: the SHA-256 digest of the URL, in lowercase hexadecimal. -/
def genKey (url : String) : String :=
  ⟨hexString (SHA256.Sum256 (url.data.flatMap utf8Bytes))⟩

/-! ## The store -/

/-- A `record`: the unit written to the log. -/
structure record where
  Key : String
  URL : String
deriving DecidableEq, Repr

/-- Go error values that the store produces or compares against. -/
inductive GoError where
  | errorf (msg : String)
  | EOF
  | ErrUnexpectedEOF
  | SyntaxError
  | UnmarshalTypeError
deriving DecidableEq, Repr

/-- `URLStore`: the map `urls` and the records sent on the channel `saver` that the
writer has not received yet, oldest first. The channel's capacity is not part of
the state: a send on a full channel waits for the writer and then enqueues. -/
structure URLStore where
  urls : Finmap (fun _ : String => String)
  saver : List record

namespace URLStore

/-- The store of `NewURLStore` before `load`: an empty map and an empty channel. -/
def empty : URLStore := ⟨∅, []⟩

/-- `Get`: the value of `s.urls[key]`, the empty string for an absent key. -/
def Get (s : URLStore) (key : String) : String :=
  (s.urls.lookup key).getD ""

/-- `Set`: refuses a present key, inserts an absent one. -/
def Set (s : URLStore) (key url : String) : URLStore × Bool :=
  if key ∈ s.urls then (s, false)
  else ({ s with urls := s.urls.insert key url }, true)

/-- `Count`: `len(s.urls)`. -/
def Count (s : URLStore) : Nat := s.urls.keys.card

/-- `Put`: the key of the URL, `Set`, and on success a send on `saver`.
The result is the new state, the returned key and the returned error. -/
def Put (s : URLStore) (url : String) : URLStore × String × Option GoError :=
  let key := genKey url
  if (s.Set key url).2 then
    ({ (s.Set key url).1 with saver := (s.Set key url).1.saver ++ [⟨key, url⟩] }, key, none)
  else
    ((s.Set key url).1, "", some (GoError.errorf "error setting key in URLStore"))

end URLStore

/-! ## `encoding/json` on the `record` type

`load` reads the log with a `json.Decoder` and `saveLoop` writes it with a
`json.Encoder`. The package is not part of the repository; this section is a model
of it on character sequences, for the one type that the store encodes and decodes:
the encoder as it writes a `record` (field order, escapes, final newline), and the
decoder as it reads any input into a `record` (the grammar of the scanner with its
white space, nesting limit and end-of-input errors, and the rules for storing an
object into the two string fields). -/

namespace JSON

/-! ### The encoder -/

/-- The escape of one character in a string literal, as `Encoder.Encode` writes it
(HTML escaping on): the two-character escapes, a `\u00XX` escape for the other
control characters and for `<`, `>`, `&`, a `\u202X` escape for the line and
paragraph separators, and the character itself otherwise. Releases of the package
before Go 1.22 write backspace and form feed as `\u0008` and `\u000c`, which the
decoder reads as the same characters. -/
def escapeChar (c : Char) : List Char :=
  if c = '"' then ['\\', '"']
  else if c = '\\' then ['\\', '\\']
  else if c = '\x08' then ['\\', 'b']
  else if c = '\x0c' then ['\\', 'f']
  else if c = '\n' then ['\\', 'n']
  else if c = '\r' then ['\\', 'r']
  else if c = '\t' then ['\\', 't']
  else if c.toNat < 0x20 ∨ c = '<' ∨ c = '>' ∨ c = '&' then
    ['\\', 'u', '0', '0', hexDigit (c.toNat / 16), hexDigit (c.toNat % 16)]
  else if c = '\u2028' ∨ c = '\u2029' then
    ['\\', 'u', '2', '0', '2', hexDigit (c.toNat % 16)]
  else [c]

/-- The body of a string literal. -/
def escape : List Char → List Char
  | [] => []
  | c :: cs => escapeChar c ++ escape cs

/-- A string literal with its quotes. -/
def quote (s : String) : List Char := '"' :: (escape s.data ++ ['"'])

/-- The JSON object of a record, without the final newline. -/
def Marshal (r : record) : List Char :=
  ['\x7b', '"', 'K', 'e', 'y', '"', ':'] ++ quote r.Key ++
  [',', '"', 'U', 'R', 'L', '"', ':'] ++ quote r.URL ++ ['\x7d']

/-- `Encoder.Encode`: the object of the record and a newline. The strings of the
record are Lean strings, so this is the encoder on valid UTF-8 only: for a byte
that is not part of a valid encoding the package writes the replacement character
`\ufffd`, and the record in the log then differs from the record in memory; such
strings, which `Put` accepts, are outside the model. -/
def Encode (r : record) : List Char := Marshal r ++ ['\n']

/-! ### The decoder -/

/-- The nesting limit of the scanner. -/
def maxNestingDepth : Nat := 10000

/-- White space between tokens. -/
def isSpace (c : Char) : Bool := c = ' ' || c = '\t' || c = '\r' || c = '\n'

/-- A decimal digit. -/
def isDigit (c : Char) : Bool := decide (48 ≤ c.toNat ∧ c.toNat ≤ 57)

/-- The input from its first character that is not white space. -/
def skipSpace : List Char → List Char
  | [] => []
  | c :: cs => if isSpace c then skipSpace cs else c :: cs

/-- The input after a run of digits. -/
def skipDigits : List Char → List Char
  | [] => []
  | c :: cs => if isDigit c then skipDigits cs else c :: cs

/-- The value of a hexadecimal digit of either case. -/
def hexVal (c : Char) : Option Nat :=
  if 48 ≤ c.toNat ∧ c.toNat ≤ 57 then some (c.toNat - 48)
  else if 97 ≤ c.toNat ∧ c.toNat ≤ 102 then some (c.toNat - 87)
  else if 65 ≤ c.toNat ∧ c.toNat ≤ 70 then some (c.toNat - 55)
  else none

/-- The character of a two-character escape. -/
def unescape (c : Char) : Option Char :=
  if c = '"' then some '"'
  else if c = '\\' then some '\\'
  else if c = '/' then some '/'
  else if c = 'b' then some '\x08'
  else if c = 'f' then some '\x0c'
  else if c = 'n' then some '\n'
  else if c = 'r' then some '\r'
  else if c = 't' then some '\t'
  else none

/-- An element of a string literal: a character, written as itself or as a
two-character escape, or the 16-bit code unit of a `\u` escape. -/
inductive StrElem where
  | char (c : Char)
  | unit (n : Nat)
deriving DecidableEq, Repr

/-- The element that the escape of a character stands for: the code unit of the
character for a `\u` escape, the character itself otherwise. -/
def elemOf (c : Char) : StrElem :=
  if (escapeChar c).length = 6 then .unit c.toNat else .char c

/-- Where the scanner is inside a string literal: between elements, after a
backslash, or in a `\u` escape with `k` digits to come and `acc` read so far. -/
inductive StrState where
  | lit
  | esc
  | hex (k acc : Nat)
deriving DecidableEq, Repr

/-- An element put in front of the elements of a successful scan. -/
def pushElem (e : StrElem) :
    Except GoError (List StrElem × List Char) → Except GoError (List StrElem × List Char)
  | .ok (es, rest) => .ok (e :: es, rest)
  | .error err => .error err

/-- The scanner inside a string literal, from after the opening quote to after
the closing one. The input ending first is an unexpected end; a control
character, an unknown escape or a bad hexadecimal digit is a syntax error. -/
def scanString : StrState → List Char → Except GoError (List StrElem × List Char)
  | _, [] => .error .ErrUnexpectedEOF
  | .lit, c :: cs =>
    if c = '"' then .ok ([], cs)
    else if c = '\\' then scanString .esc cs
    else if c.toNat < 0x20 then .error .SyntaxError
    else pushElem (.char c) (scanString .lit cs)
  | .esc, c :: cs =>
    if c = 'u' then scanString (.hex 4 0) cs
    else
      match unescape c with
      | none => .error .SyntaxError
      | some d => pushElem (.char d) (scanString .lit cs)
  | .hex k acc, c :: cs =>
    match hexVal c with
    | none => .error .SyntaxError
    | some v =>
      if k ≤ 1 then pushElem (.unit (16 * acc + v)) (scanString .lit cs)
      else scanString (.hex (k - 1) (16 * acc + v)) cs

/-- The characters of a scanned literal: a high surrogate followed by a low one
is one character, any other surrogate is the replacement character. -/
def unquote : List StrElem → List Char
  | [] => []
  | .char c :: es => c :: unquote es
  | .unit hi :: .unit lo :: es =>
    if 0xD800 ≤ hi ∧ hi < 0xDC00 ∧ 0xDC00 ≤ lo ∧ lo < 0xE000 then
      Char.ofNat ((hi - 0xD800) * 1024 + (lo - 0xDC00) + 0x10000) :: unquote es
    else if 0xD800 ≤ hi ∧ hi < 0xE000 then '\ufffd' :: unquote (.unit lo :: es)
    else Char.ofNat hi :: unquote (.unit lo :: es)
  | .unit n :: es =>
    if 0xD800 ≤ n ∧ n < 0xE000 then '\ufffd' :: unquote es
    else Char.ofNat n :: unquote es

/-- The rest of a literal name (`true`, `false`, `null`) after its first letter. -/
def scanLiteral : List Char → List Char → Except GoError (List Char)
  | [], cs => .ok cs
  | _ :: _, [] => .error .ErrUnexpectedEOF
  | e :: es, c :: cs => if c = e then scanLiteral es cs else .error .SyntaxError

/-- The exponent of a number after `e` or `E`: an optional sign and digits. -/
def scanExponent : List Char → Except GoError (List Char)
  | [] => .error .ErrUnexpectedEOF
  | c :: cs =>
    if c = '+' ∨ c = '-' then
      match cs with
      | [] => .error .ErrUnexpectedEOF
      | d :: ds => if isDigit d then .ok (skipDigits ds) else .error .SyntaxError
    else if isDigit c then .ok (skipDigits cs)
    else .error .SyntaxError

/-- A number after its integer part: an optional fraction and exponent. -/
def scanFraction : List Char → Except GoError (List Char)
  | [] => .ok []
  | c :: cs =>
    if c = '.' then
      match cs with
      | [] => .error .ErrUnexpectedEOF
      | d :: ds =>
        if isDigit d then
          match skipDigits ds with
          | [] => .ok []
          | e :: es => if e = 'e' ∨ e = 'E' then scanExponent es else .ok (e :: es)
        else .error .SyntaxError
    else if c = 'e' ∨ c = 'E' then scanExponent cs
    else .ok (c :: cs)

/-- A number after an optional minus sign. -/
def scanDigits : List Char → Except GoError (List Char)
  | [] => .error .ErrUnexpectedEOF
  | c :: cs =>
    if c = '0' then scanFraction cs
    else if isDigit c then scanFraction (skipDigits cs)
    else .error .SyntaxError

/-- What a value is, with the characters of a string. -/
inductive Value where
  | null
  | bool
  | number
  | string (s : String)
  | array
  | object
deriving DecidableEq, Repr

mutual

/-- The scanner on a value: white space, then an object, an array, a string
literal, a number or a literal name. `depth` is the number of open objects and
arrays. `fuel` bounds the calls: a value takes one unit and an element of an array
one more before a character is consumed, so twice the length of the input and
one is enough. -/
def scanValue : Nat → Nat → List Char → Except GoError (Value × List Char)
  | 0, _, _ => .error .SyntaxError
  | fuel + 1, depth, cs =>
    match skipSpace cs with
    | [] => .error .ErrUnexpectedEOF
    | c :: rest =>
      if c = '\x7b' then
        if depth < maxNestingDepth then
          match scanObject fuel (depth + 1) true rest with
          | .ok (_, r) => .ok (.object, r)
          | .error e => .error e
        else .error .SyntaxError
      else if c = '[' then
        if depth < maxNestingDepth then
          match scanArray fuel (depth + 1) true rest with
          | .ok r => .ok (.array, r)
          | .error e => .error e
        else .error .SyntaxError
      else if c = '"' then
        match scanString .lit rest with
        | .ok (es, r) => .ok (.string ⟨unquote es⟩, r)
        | .error e => .error e
      else if c = '-' then
        match scanDigits rest with
        | .ok r => .ok (.number, r)
        | .error e => .error e
      else if isDigit c then
        match scanDigits (c :: rest) with
        | .ok r => .ok (.number, r)
        | .error e => .error e
      else if c = 't' then
        match scanLiteral ['r', 'u', 'e'] rest with
        | .ok r => .ok (.bool, r)
        | .error e => .error e
      else if c = 'f' then
        match scanLiteral ['a', 'l', 's', 'e'] rest with
        | .ok r => .ok (.bool, r)
        | .error e => .error e
      else if c = 'n' then
        match scanLiteral ['u', 'l', 'l'] rest with
        | .ok r => .ok (.null, r)
        | .error e => .error e
      else .error .SyntaxError

/-- The scanner inside an object, at a key (or at the closing brace when
`orEmpty`): the members read, and the input after the closing brace. -/
def scanObject : Nat → Nat → Bool → List Char →
    Except GoError (List (String × Value) × List Char)
  | 0, _, _, _ => .error .SyntaxError
  | fuel + 1, depth, orEmpty, cs =>
    match skipSpace cs with
    | [] => .error .ErrUnexpectedEOF
    | c :: rest =>
      if c = '\x7d' ∧ orEmpty = true then .ok ([], rest)
      else if c = '"' then
        match scanString .lit rest with
        | .error e => .error e
        | .ok (key, r1) =>
          match skipSpace r1 with
          | [] => .error .ErrUnexpectedEOF
          | c1 :: r2 =>
            if c1 = ':' then
              match scanValue fuel depth r2 with
              | .error e => .error e
              | .ok (v, r3) =>
                match skipSpace r3 with
                | [] => .error .ErrUnexpectedEOF
                | c2 :: r4 =>
                  if c2 = ',' then
                    match scanObject fuel depth false r4 with
                    | .ok (ms, r5) => .ok ((⟨unquote key⟩, v) :: ms, r5)
                    | .error e => .error e
                  else if c2 = '\x7d' then .ok ([(⟨unquote key⟩, v)], r4)
                  else .error .SyntaxError
            else .error .SyntaxError
      else .error .SyntaxError

/-- The scanner inside an array, at an element (or at the closing bracket when
`orEmpty`): the input after the closing bracket. -/
def scanArray : Nat → Nat → Bool → List Char → Except GoError (List Char)
  | 0, _, _, _ => .error .SyntaxError
  | fuel + 1, depth, orEmpty, cs =>
    match skipSpace cs with
    | [] => .error .ErrUnexpectedEOF
    | c :: rest =>
      if c = ']' ∧ orEmpty = true then .ok rest
      else
        match scanValue fuel depth (c :: rest) with
        | .error e => .error e
        | .ok (_, r1) =>
          match skipSpace r1 with
          | [] => .error .ErrUnexpectedEOF
          | c1 :: r2 =>
            if c1 = ',' then scanArray fuel depth false r2
            else if c1 = ']' then .ok r2
            else .error .SyntaxError

end

/-- The fold of a rune in a key, for the runes that fold to an ASCII letter: the
lowercase letters, the Kelvin sign and the long s. -/
def foldRune (c : Char) : Char :=
  if 97 ≤ c.toNat ∧ c.toNat ≤ 122 then Char.ofNat (c.toNat - 32)
  else if c = '\u212a' then 'K'
  else if c = '\u017f' then 'S'
  else c

/-- A key names a field when it is the field's name up to case folding. -/
def isField (name : String) (key : String) : Bool :=
  key.data.map foldRune = name.data.map foldRune

/-- A member's value stored into a string field: a string is stored, `null` leaves
the field, any other value is a type error. -/
def storeString (v : Value) (old : String) : String × Bool :=
  match v with
  | .string s => (s, true)
  | .null => (old, true)
  | _ => (old, false)

/-- The members of an object stored into a record, in order, and whether every
member of a field had a fitting type. Members of no field are skipped. -/
def unmarshal : List (String × Value) → record → record × Bool
  | [], r => (r, true)
  | (k, v) :: ms, r =>
    if isField "Key" k then
      ((unmarshal ms { r with Key := (storeString v r.Key).1 }).1,
        (storeString v r.Key).2 && (unmarshal ms { r with Key := (storeString v r.Key).1 }).2)
    else if isField "URL" k then
      ((unmarshal ms { r with URL := (storeString v r.URL).1 }).1,
        (storeString v r.URL).2 && (unmarshal ms { r with URL := (storeString v r.URL).1 }).2)
    else unmarshal ms r

/-- `Decoder.Decode` into a fresh record, on the input not yet consumed: the
record and the input left, or the error. White space only is the end of the
stream. The scanner ends an object at its closing brace and an array at its
bracket; it ends a string, a number or a literal name at the first character that
does not continue it, whatever that character is, and leaves that character in the
input: the complaint about it is for the next call. A syntax error or an input that
ends in the value comes before any error of type, which is returned once the whole
value is read: `null` leaves the record as it is, any other value that is not an
object is an error of type. -/
def Decode (input : List Char) : Except GoError (record × List Char) :=
  match skipSpace input with
  | [] => .error .EOF
  | c :: rest =>
    if c = '\x7b' then
      match scanObject (2 * rest.length + 2) 1 true rest with
      | .error e => .error e
      | .ok (ms, r) =>
        if (unmarshal ms ⟨"", ""⟩).2 then .ok ((unmarshal ms ⟨"", ""⟩).1, r)
        else .error .UnmarshalTypeError
    else
      match scanValue (2 * rest.length + 3) 0 (c :: rest) with
      | .error e => .error e
      | .ok (v, r) =>
        if v = .null then .ok (⟨"", ""⟩, r) else .error .UnmarshalTypeError

end JSON

/-! ## The writer and the loader -/

/-- An iteration of `saveLoop`: the oldest record of `saver` is received and its
encoding is appended to the file, which was opened for appending. With an empty
channel the writer waits. The write itself is taken to succeed. -/
def saveLoop (s : URLStore) (file : List Char) : URLStore × List Char :=
  match s.saver with
  | [] => (s, file)
  | r :: rs => ({ s with saver := rs }, file ++ JSON.Encode r)

/-- The loop of `load`: decode and `Set` until a decode fails; the result is the
store and that error. Every successful `Decode` consumes input, so `fuel` above
the length of the input is never used up. -/
def loadLoop : Nat → URLStore → List Char → URLStore × GoError
  | 0, s, _ => (s, .ErrUnexpectedEOF)
  | fuel + 1, s, input =>
    match JSON.Decode input with
    | .ok (r, rest) => loadLoop fuel (s.Set r.Key r.URL).1 rest
    | .error e => (s, e)

/-- `load` on the content of the file, which opens and seeks to its start: `nil`
when the loop ended on `io.EOF`, the error of the loop otherwise. -/
def load (s : URLStore) (file : List Char) : URLStore × Option GoError :=
  if (loadLoop (file.length + 1) s file).2 = .EOF then
    ((loadLoop (file.length + 1) s file).1, none)
  else ((loadLoop (file.length + 1) s file).1, some (loadLoop (file.length + 1) s file).2)

/-- `NewURLStore` on the content of the file: an empty store, loaded; the error of
`load` is logged and the store is used as it is. -/
def NewURLStore (file : List Char) : URLStore := (load URLStore.empty file).1

/-! ## Runs -/

/-- `Set` of a record, as `load` calls it: the result of `Set` is dropped. -/
def setRecord (s : URLStore) (r : record) : URLStore := (s.Set r.Key r.URL).1

/-- The records that successive calls of `Decode` return up to the first failure,
and that failure. -/
def decodeAll : Nat → List Char → List record × GoError
  | 0, _ => ([], .ErrUnexpectedEOF)
  | fuel + 1, input =>
    match JSON.Decode input with
    | .ok (r, rest) => (r :: (decodeAll fuel rest).1, (decodeAll fuel rest).2)
    | .error e => ([], e)

/-- The records of a log: those that decode before the first failure. -/
def decodeStream (file : List Char) : List record × GoError :=
  decodeAll (file.length + 1) file

/-- What the writer appends for a sequence of records. -/
def encodeAll : List record → List Char
  | [] => []
  | r :: rs => JSON.Encode r ++ encodeAll rs

/-- An operation on a store: the four methods, and `load` on the content of a file. -/
inductive Op where
  | Set (key url : String)
  | Put (url : String)
  | Get (key : String)
  | Count
  | load (file : List Char)

/-- The store after an operation. -/
def Op.apply (s : URLStore) : Op → URLStore
  | .Set key url => (s.Set key url).1
  | .Put url => (s.Put url).1
  | .Get _ => s
  | .Count => s
  | .load file => (URLShortener.load s file).1

/-- The store after a sequence of operations. -/
def runOps (s : URLStore) (ops : List Op) : URLStore := ops.foldl Op.apply s

/-- The store after a sequence of `Put` calls. -/
def putAll (s : URLStore) (urls : List String) : URLStore :=
  urls.foldl (fun t u => (t.Put u).1) s

/-- A running process: the store and the content of the log file. -/
structure Process where
  store : URLStore
  file : List Char

/-- A step of a running process: a call of `Put`, or an iteration of the writer. -/
inductive Event where
  | Put (url : String)
  | save

/-- The process after a step. -/
def Process.step (p : Process) : Event → Process
  | .Put url => ⟨(p.store.Put url).1, p.file⟩
  | .save => ⟨(saveLoop p.store p.file).1, (saveLoop p.store p.file).2⟩

/-- The process after a sequence of steps. -/
def Process.run (p : Process) (evs : List Event) : Process := evs.foldl Process.step p

/-- The process that `NewURLStore` starts on a log file. -/
def Process.start (file : List Char) : Process := ⟨NewURLStore file, file⟩

/-- The number of writer iterations of a run that found a record on the channel. -/
def received (p : Process) : List Event → Nat
  | [] => 0
  | .Put url :: evs => received (p.step (.Put url)) evs
  | .save :: evs => (if p.store.saver = [] then 0 else 1) + received (p.step .save) evs

/-- The records of the `Put` calls of a run that returned a nil error, in call order. -/
def succeeded (p : Process) : List Event → List record
  | [] => []
  | .Put url :: evs =>
    if (p.store.Put url).2.2 = none then
      ⟨genKey url, url⟩ :: succeeded (p.step (.Put url)) evs
    else succeeded (p.step (.Put url)) evs
  | .save :: evs => succeeded (p.step .save) evs

/-! ## The store operations -/

namespace URLStore


theorem keys_insert (m : Finmap (fun _ : String => String)) (k v : String) :
    (m.insert k v).keys = insert k m.keys := by
  ext a
  simp [Finmap.mem_keys, Finmap.mem_insert]

theorem Set_of_mem {s : URLStore} {key : String} (url : String) (h : key ∈ s.urls) :
    s.Set key url = (s, false) := by
  simp [Set, h]

theorem Set_of_not_mem {s : URLStore} {key : String} (url : String) (h : key ∉ s.urls) :
    s.Set key url = ({ s with urls := s.urls.insert key url }, true) := by
  simp [Set, h]
theorem Set_saver (s : URLStore) (key url : String) : (s.Set key url).1.saver = s.saver := by
  by_cases h : key ∈ s.urls <;> simp [Set, h]

theorem mem_Set (s : URLStore) (key url : String) : key ∈ (s.Set key url).1.urls := by
  by_cases h : key ∈ s.urls <;> simp [Set, h, Finmap.mem_insert]

theorem lookup_Set_of_lookup {s : URLStore} {k v : String} (key url : String)
    (h : s.urls.lookup k = some v) : (s.Set key url).1.urls.lookup k = some v := by
  by_cases hk : key ∈ s.urls
  · simpa [Set, hk] using h
  · have hne : k ≠ key := by
      rintro rfl
      exact hk (Finmap.mem_of_lookup_eq_some h)
    simp [Set, hk, Finmap.lookup_insert_of_ne _ hne, h]

theorem lookup_Set_of_not_mem {s : URLStore} {key : String} (url : String) (h : key ∉ s.urls) :
    (s.Set key url).1.urls.lookup key = some url := by
  simp [Set, h, Finmap.lookup_insert]

theorem lookup_Set_of_ne (s : URLStore) {k key : String} (url : String) (h : k ≠ key) :
    (s.Set key url).1.urls.lookup k = s.urls.lookup k := by
  by_cases hk : key ∈ s.urls
  · simp [Set, hk]
  · simp [Set, hk, Finmap.lookup_insert_of_ne _ h]

theorem Put_of_mem {s : URLStore} {url : String} (h : genKey url ∈ s.urls) :
    s.Put url = (s, "", some (GoError.errorf "error setting key in URLStore")) := by
  simp [Put, Set_of_mem url h]

theorem Put_of_not_mem {s : URLStore} {url : String} (h : genKey url ∉ s.urls) :
    s.Put url = (⟨s.urls.insert (genKey url) url, s.saver ++ [⟨genKey url, url⟩]⟩,
      genKey url, none) := by
  simp [Put, Set_of_not_mem url h]

theorem Put_urls (s : URLStore) (url : String) :
    (s.Put url).1.urls = (s.Set (genKey url) url).1.urls := by
  by_cases h : genKey url ∈ s.urls
  · simp [Put_of_mem h, Set_of_mem url h]
  · simp [Put_of_not_mem h, Set_of_not_mem url h]

theorem lookup_Put_of_lookup {s : URLStore} {k v : String} (url : String)
    (h : s.urls.lookup k = some v) : (s.Put url).1.urls.lookup k = some v := by
  rw [Put_urls]
  exact lookup_Set_of_lookup _ url h

theorem lookup_Put_of_not_mem {s : URLStore} {url : String} (h : genKey url ∉ s.urls) :
    (s.Put url).1.urls.lookup (genKey url) = some url := by
  rw [Put_urls]
  exact lookup_Set_of_not_mem url h

theorem lookup_Put_of_ne (s : URLStore) {k : String} {url : String} (h : k ≠ genKey url) :
    (s.Put url).1.urls.lookup k = s.urls.lookup k := by
  rw [Put_urls]
  exact lookup_Set_of_ne s url h

theorem Get_of_lookup {s : URLStore} {k v : String} (h : s.urls.lookup k = some v) :
    s.Get k = v := by
  simp [Get, h]

theorem Get_of_not_mem {s : URLStore} {k : String} (h : k ∉ s.urls) : s.Get k = "" := by
  simp [Get, Finmap.lookup_eq_none.2 h]

end URLStore

open URLStore


/-! ### `genKey` -/

theorem bigEndian_length (n k : Nat) : (SHA256.bigEndian n k).length = k := by
  induction k with
  | zero => rfl
  | succ k ih => simp [SHA256.bigEndian, ih]

theorem hexString_length (bs : List Nat) : (hexString bs).length = 2 * bs.length := by
  induction bs with
  | nil => rfl
  | cons b bs ih => simp [hexString, ih]; omega

/-- The key of a URL has 64 characters. -/
theorem genKey_length (url : String) : (genKey url).length = 64 := by
  simp [genKey, String.length, hexString_length, SHA256.Sum256, SHA256.Digest.bytes,
    bigEndian_length]

set_option maxRecDepth 100000 in
/-- The key of `abc` is the digest that FIPS 180-4 gives for this message. -/
theorem genKey_abc :
    genKey "abc" = "ba7816bf8f01cfea414140de5dae2223b00361a396177a9cb410ff61f20015ad" := by
  decide

set_option maxRecDepth 100000 in
/-- The key of a message of 56 bytes, padded to two blocks, is the digest that
FIPS 180-4 gives for it. -/
theorem genKey_two_blocks :
    genKey "abcdbcdecdefdefgefghfghighijhijkijkljklmklmnlmnomnopnopq" =
      "248d6a61d20638b8e5c026930c3e6039a33ce45964ff2167f6ecedd419db06c1" := by
  decide

set_option maxRecDepth 100000 in
theorem genKey_a :
    genKey "a" = "ca978112ca1bbdcafac231b39a23dc4da786eff8147c4e72b9807785afee48bb" := by
  decide

set_option maxRecDepth 100000 in
theorem genKey_b :
    genKey "b" = "3e23e8160039594a33894f6564e1b1348bbd7a0088d42c4acb73eeaed59c009d" := by
  decide



/-- C1: `Set` on a present key returns false and leaves the store as it was; on an
absent key it returns true, the key then maps to the URL, every other key keeps
its value, `Count` grows by one and the channel is untouched. -/
theorem Set_spec (s : URLStore) (key url : String) :
    (key ∈ s.urls → (s.Set key url).2 = false ∧ (s.Set key url).1 = s) ∧
    (key ∉ s.urls → (s.Set key url).2 = true ∧
      (s.Set key url).1.urls = s.urls.insert key url ∧
      (s.Set key url).1.urls.lookup key = some url ∧
      (s.Set key url).1.Get key = url ∧
      (∀ k, k ≠ key → (s.Set key url).1.urls.lookup k = s.urls.lookup k) ∧
      (∀ k, k ≠ key → (s.Set key url).1.Get k = s.Get k) ∧
      (∀ k, k ∈ (s.Set key url).1.urls ↔ k = key ∨ k ∈ s.urls) ∧
      (s.Set key url).1.Count = s.Count + 1 ∧
      (s.Set key url).1.saver = s.saver) := by
  refine ⟨fun h => by simp [Set_of_mem url h], fun h => ?_⟩
  have hk : key ∉ s.urls.keys := by simpa [Finmap.mem_keys] using h
  refine ⟨by simp [Set_of_not_mem url h], by simp [Set_of_not_mem url h],
    lookup_Set_of_not_mem url h, Get_of_lookup (lookup_Set_of_not_mem url h),
    fun k hne => lookup_Set_of_ne s url hne, fun k hne => ?_, fun k => ?_, ?_,
    Set_saver s key url⟩
  · simp [Get, lookup_Set_of_ne s url hne]
  · simp [Set_of_not_mem url h, Finmap.mem_insert]
  · simp [Set_of_not_mem url h, Count, keys_insert, Finset.card_insert_of_not_mem hk]

/-- Witness of `Set_spec`: both cases on a store that holds the key `k`. -/
theorem Set_spec_witness :
    (((URLStore.empty.Set "k" "v").1.Set "k" "w").2 = false ∧
      ((URLStore.empty.Set "k" "v").1.Set "k" "w").1 = (URLStore.empty.Set "k" "v").1) ∧
    (((URLStore.empty.Set "k" "v").1.Set "j" "w").1.Get "j" = "w" ∧
      ((URLStore.empty.Set "k" "v").1.Set "j" "w").1.Count = 2) :=
  ⟨(Set_spec (URLStore.empty.Set "k" "v").1 "k" "w").1 (by decide),
    ((Set_spec (URLStore.empty.Set "k" "v").1 "j" "w").2 (by decide)).2.2.2.1,
    ((Set_spec (URLStore.empty.Set "k" "v").1 "j" "w").2 (by decide)).2.2.2.2.2.2.2.1⟩

/-- C2: after a call of `Put` on a URL, a second call on the same URL returns the
empty key and a non-nil error, and leaves the map, `Count` and the channel as the
first call left them. -/
theorem Put_twice (s : URLStore) (u : String) :
    ((s.Put u).1.Put u).2.1 = "" ∧
    ((s.Put u).1.Put u).2.2 = some (GoError.errorf "error setting key in URLStore") ∧
    ((s.Put u).1.Put u).2.2 ≠ none ∧
    ((s.Put u).1.Put u).1.urls = (s.Put u).1.urls ∧
    ((s.Put u).1.Put u).1.Count = (s.Put u).1.Count ∧
    ((s.Put u).1.Put u).1 = (s.Put u).1 := by
  have h : genKey u ∈ (s.Put u).1.urls := by
    rw [Put_urls]
    exact mem_Set s (genKey u) u
  simp [Put_of_mem h]

/-- C3: on a store that holds neither key, for URLs with distinct keys, `Put` on the
first and then on the second both return the key of the URL and a nil error;
afterwards `Get` maps each key to its URL, and a key that is neither of the two and
was not in the store to the empty string. -/
theorem Put_two_distinct (s : URLStore) (u1 u2 : String) (_hu : u1 ≠ u2)
    (hk : genKey u1 ≠ genKey u2) (h1 : genKey u1 ∉ s.urls) (h2 : genKey u2 ∉ s.urls) :
    (s.Put u1).2 = (genKey u1, none) ∧
    ((s.Put u1).1.Put u2).2 = (genKey u2, none) ∧
    ((s.Put u1).1.Put u2).1.Get (genKey u1) = u1 ∧
    ((s.Put u1).1.Put u2).1.Get (genKey u2) = u2 ∧
    (∀ k, k ∉ s.urls → k ≠ genKey u1 → k ≠ genKey u2 →
      ((s.Put u1).1.Put u2).1.Get k = "") := by
  have h2' : genKey u2 ∉ (s.Put u1).1.urls := by
    rw [← Finmap.lookup_eq_none, lookup_Put_of_ne s (Ne.symm hk)]
    exact Finmap.lookup_eq_none.2 h2
  refine ⟨by simp [Put_of_not_mem h1], by simp [Put_of_not_mem h2'], ?_, ?_, ?_⟩
  · exact Get_of_lookup (lookup_Put_of_lookup u2 (lookup_Put_of_not_mem h1))
  · exact Get_of_lookup (lookup_Put_of_not_mem h2')
  · intro k hks hk1 hk2
    apply Get_of_not_mem
    rw [← Finmap.lookup_eq_none, lookup_Put_of_ne _ hk2, lookup_Put_of_ne _ hk1]
    exact Finmap.lookup_eq_none.2 hks

/-- Witness of `Put_two_distinct`: the URLs `a` and `b` on the empty store. -/
theorem Put_two_distinct_witness :
    (URLStore.empty.Put "a").2 = (genKey "a", none) ∧
    ((URLStore.empty.Put "a").1.Put "b").2 = (genKey "b", none) ∧
    ((URLStore.empty.Put "a").1.Put "b").1.Get (genKey "a") = "a" ∧
    ((URLStore.empty.Put "a").1.Put "b").1.Get (genKey "b") = "b" ∧
    (∀ k, k ∉ URLStore.empty.urls → k ≠ genKey "a" → k ≠ genKey "b" →
      ((URLStore.empty.Put "a").1.Put "b").1.Get k = "") :=
  Put_two_distinct URLStore.empty "a" "b" (by decide)
    (by rw [genKey_a, genKey_b]; decide) (Finmap.not_mem_empty) (Finmap.not_mem_empty)

/-! ## The decoder consumes input -/

namespace JSON

theorem skipSpace_length (cs : List Char) : (skipSpace cs).length ≤ cs.length := by
  induction cs with
  | nil => simp [skipSpace]
  | cons c cs ih =>
    simp only [skipSpace]
    split
    · exact Nat.le_succ_of_le ih
    · exact Nat.le_refl _

theorem skipDigits_length (cs : List Char) : (skipDigits cs).length ≤ cs.length := by
  induction cs with
  | nil => simp [skipDigits]
  | cons c cs ih =>
    simp only [skipDigits]
    split
    · exact Nat.le_succ_of_le ih
    · exact Nat.le_refl _

theorem pushElem_ok {e : StrElem} {res : Except GoError (List StrElem × List Char)}
    {es : List StrElem} {rest : List Char} (h : pushElem e res = .ok (es, rest)) :
    ∃ es', res = .ok (es', rest) ∧ es = e :: es' := by
  cases res with
  | error err => simp [pushElem] at h
  | ok p =>
    obtain ⟨es', r⟩ := p
    simp only [pushElem, Except.ok.injEq, Prod.mk.injEq] at h
    exact ⟨es', by rw [h.2], h.1.symm⟩

theorem scanString_progress (cs : List Char) :
    ∀ (st : StrState) (es : List StrElem) (rest : List Char),
      scanString st cs = .ok (es, rest) → rest.length < cs.length := by
  induction cs with
  | nil => intro st es rest h; cases st <;> simp [scanString] at h
  | cons c cs ih =>
    intro st es rest h
    cases st with
    | lit =>
      simp only [scanString] at h
      split at h
      · simp only [Except.ok.injEq, Prod.mk.injEq] at h
        simp [← h.2]
      · split at h
        · exact Nat.lt_succ_of_lt (ih _ _ _ h)
        · split at h
          · simp at h
          · obtain ⟨es', h', _⟩ := pushElem_ok h
            exact Nat.lt_succ_of_lt (ih _ _ _ h')
    | esc =>
      simp only [scanString] at h
      split at h
      · exact Nat.lt_succ_of_lt (ih _ _ _ h)
      · split at h
        · simp at h
        · obtain ⟨es', h', _⟩ := pushElem_ok h
          exact Nat.lt_succ_of_lt (ih _ _ _ h')
    | hex k acc =>
      simp only [scanString] at h
      split at h
      · simp at h
      · split at h
        · obtain ⟨es', h', _⟩ := pushElem_ok h
          exact Nat.lt_succ_of_lt (ih _ _ _ h')
        · exact Nat.lt_succ_of_lt (ih _ _ _ h)

theorem scanLiteral_progress (es : List Char) :
    ∀ (cs rest : List Char), scanLiteral es cs = .ok rest → rest.length ≤ cs.length := by
  induction es with
  | nil => intro cs rest h; simp only [scanLiteral, Except.ok.injEq] at h; simp [h]
  | cons e es ih =>
    intro cs rest h
    cases cs with
    | nil => simp [scanLiteral] at h
    | cons c cs =>
      simp only [scanLiteral] at h
      split at h
      · exact Nat.le_succ_of_le (ih _ _ h)
      · simp at h

theorem scanExponent_progress {cs rest : List Char} (h : scanExponent cs = .ok rest) :
    rest.length ≤ cs.length := by
  cases cs with
  | nil => simp [scanExponent] at h
  | cons c cs =>
    simp only [scanExponent] at h
    split at h
    · cases cs with
      | nil => simp at h
      | cons d ds =>
        simp only at h
        split at h
        · simp only [Except.ok.injEq] at h
          have := skipDigits_length ds
          simp only [← h, List.length_cons]
          omega
        · simp at h
    · split at h
      · simp only [Except.ok.injEq] at h
        have := skipDigits_length cs
        simp only [← h, List.length_cons]
        omega
      · simp at h

theorem scanFraction_progress {cs rest : List Char} (h : scanFraction cs = .ok rest) :
    rest.length ≤ cs.length := by
  cases cs with
  | nil => simp only [scanFraction, Except.ok.injEq] at h; simp [← h]
  | cons c cs =>
    simp only [scanFraction] at h
    split at h
    · cases cs with
      | nil => simp at h
      | cons d ds =>
        simp only at h
        split at h
        · have hd := skipDigits_length ds
          split at h
          · simp only [Except.ok.injEq] at h
            simp [← h]
          · rename_i e es heq
            rw [heq] at hd
            simp only [List.length_cons] at hd
            split at h
            · have := scanExponent_progress h
              simp only [List.length_cons]
              omega
            · simp only [Except.ok.injEq] at h
              simp only [← h, List.length_cons]
              omega
        · simp at h
    · split at h
      · have := scanExponent_progress h
        simp only [List.length_cons]
        omega
      · simp only [Except.ok.injEq] at h
        simp [← h]

theorem scanDigits_progress {cs rest : List Char} (h : scanDigits cs = .ok rest) :
    rest.length < cs.length := by
  cases cs with
  | nil => simp [scanDigits] at h
  | cons c cs =>
    simp only [scanDigits] at h
    split at h
    · have := scanFraction_progress h
      simp only [List.length_cons]
      omega
    · split at h
      · have := scanFraction_progress h
        have := skipDigits_length cs
        simp only [List.length_cons]
        omega
      · simp at h

end JSON

namespace JSON

/-- A successful scan of a value, of the members of an object or of the elements of
an array leaves strictly less input. -/
theorem scan_progress (fuel : Nat) :
    (∀ depth cs v rest, scanValue fuel depth cs = .ok (v, rest) → rest.length < cs.length) ∧
    (∀ depth b cs ms rest,
      scanObject fuel depth b cs = .ok (ms, rest) → rest.length < cs.length) ∧
    (∀ depth b cs rest, scanArray fuel depth b cs = .ok rest → rest.length < cs.length) := by
  induction fuel with
  | zero =>
    refine ⟨?_, ?_, ?_⟩
    · intro depth cs v rest h; simp [scanValue] at h
    · intro depth b cs ms rest h; simp [scanObject] at h
    · intro depth b cs rest h; simp [scanArray] at h
  | succ n ih =>
    obtain ⟨ihV, ihO, ihA⟩ := ih
    refine ⟨?_, ?_, ?_⟩
    · intro depth cs v rest h
      rw [scanValue] at h
      have hs := skipSpace_length cs
      split at h
      · simp at h
      · rename_i c r heq
        rw [heq] at hs
        simp only [List.length_cons] at hs
        repeat' split at h
        all_goals first
          | (simp at h; done)
          | (simp only [Except.ok.injEq, Prod.mk.injEq] at h
             obtain ⟨-, rfl⟩ := h
             first
              | (have hlen := ihO _ _ _ _ _ (by assumption); omega)
              | (have hlen := ihA _ _ _ _ (by assumption); omega)
              | (have hlen := scanString_progress _ _ _ _ (by assumption); omega)
              | (have hlen := scanDigits_progress (by assumption)
                 simp only [List.length_cons] at hlen; omega)
              | (have hlen := scanLiteral_progress _ _ _ (by assumption); omega))
    · intro depth b cs ms rest h
      rw [scanObject] at h
      have hs := skipSpace_length cs
      split at h
      · simp at h
      · rename_i c r heq
        rw [heq] at hs
        simp only [List.length_cons] at hs
        split at h
        · simp only [Except.ok.injEq, Prod.mk.injEq] at h
          obtain ⟨-, rfl⟩ := h
          omega
        · split at h
          · split at h
            · simp at h
            · rename_i key r1 hkey
              have h1 := scanString_progress _ _ _ _ hkey
              have hs1 := skipSpace_length r1
              split at h
              · simp at h
              · rename_i c1 r2 heq1
                rw [heq1] at hs1
                simp only [List.length_cons] at hs1
                split at h
                · split at h
                  · simp at h
                  · rename_i v r3 hv
                    have h3 := ihV _ _ _ _ hv
                    have hs3 := skipSpace_length r3
                    split at h
                    · simp at h
                    · rename_i c2 r4 heq3
                      rw [heq3] at hs3
                      simp only [List.length_cons] at hs3
                      split at h
                      · split at h
                        · rename_i ms' r5 hO
                          have h5 := ihO _ _ _ _ _ hO
                          simp only [Except.ok.injEq, Prod.mk.injEq] at h
                          obtain ⟨-, rfl⟩ := h
                          omega
                        · simp at h
                      · split at h
                        · simp only [Except.ok.injEq, Prod.mk.injEq] at h
                          obtain ⟨-, rfl⟩ := h
                          omega
                        · simp at h
                · simp at h
          · simp at h
    · intro depth b cs rest h
      rw [scanArray] at h
      have hs := skipSpace_length cs
      split at h
      · simp at h
      · rename_i c r heq
        rw [heq] at hs
        simp only [List.length_cons] at hs
        split at h
        · simp only [Except.ok.injEq] at h
          subst h
          omega
        · split at h
          · simp at h
          · rename_i v r1 hv
            have h1 := ihV _ _ _ _ hv
            simp only [List.length_cons] at h1
            have hs1 := skipSpace_length r1
            split at h
            · simp at h
            · rename_i c1 r2 heq1
              rw [heq1] at hs1
              simp only [List.length_cons] at hs1
              split at h
              · have := ihA _ _ _ _ h
                omega
              · split at h
                · simp only [Except.ok.injEq] at h
                  subst h
                  omega
                · simp at h

/-- A successful `Decode` leaves strictly less input. -/
theorem Decode_progress {input : List Char} {r : record} {rest : List Char}
    (h : Decode input = .ok (r, rest)) : rest.length < input.length := by
  unfold Decode at h
  have hs := skipSpace_length input
  split at h
  · simp at h
  · rename_i c r0 heq
    rw [heq] at hs
    simp only [List.length_cons] at hs
    split at h
    · split at h
      · simp at h
      · rename_i ms r1 hO
        have := (scan_progress _).2.1 _ _ _ _ _ hO
        split at h
        · simp only [Except.ok.injEq, Prod.mk.injEq] at h
          obtain ⟨-, rfl⟩ := h
          omega
        · simp at h
    · split at h
      · simp at h
      · rename_i v r1 hV
        have := (scan_progress _).1 _ _ _ _ hV
        simp only [List.length_cons] at this
        repeat' split at h
        all_goals first
          | (simp at h; done)
          | (simp only [Except.ok.injEq, Prod.mk.injEq] at h
             obtain ⟨-, rfl⟩ := h
             omega)

end JSON

namespace JSON

/-- Fuel above twice the length of the input is not used up: one more unit of fuel
gives the same scan. -/
theorem scan_fuel_succ (fuel : Nat) :
    (∀ depth cs, 2 * cs.length + 1 ≤ fuel →
      scanValue (fuel + 1) depth cs = scanValue fuel depth cs) ∧
    (∀ depth b cs, 2 * cs.length + 2 ≤ fuel →
      scanObject (fuel + 1) depth b cs = scanObject fuel depth b cs) ∧
    (∀ depth b cs, 2 * cs.length + 2 ≤ fuel →
      scanArray (fuel + 1) depth b cs = scanArray fuel depth b cs) := by
  induction fuel with
  | zero =>
    refine ⟨?_, ?_, ?_⟩ <;> intros <;> omega
  | succ n ih =>
    obtain ⟨ihV, ihO, ihA⟩ := ih
    refine ⟨?_, ?_, ?_⟩
    · intro depth cs hlt
      conv_lhs => rw [scanValue]
      conv_rhs => rw [scanValue]
      have hs := skipSpace_length cs
      cases hsk : skipSpace cs with
      | nil => rfl
      | cons c rest =>
        rw [hsk] at hs
        simp only [List.length_cons] at hs
        simp only [ihO (depth + 1) true rest (by omega), ihA (depth + 1) true rest (by omega)]
    · intro depth b cs hlt
      conv_lhs => rw [scanObject]
      conv_rhs => rw [scanObject]
      have hs := skipSpace_length cs
      cases hsk : skipSpace cs with
      | nil => rfl
      | cons c rest =>
        rw [hsk] at hs
        simp only [List.length_cons] at hs
        simp only []
        by_cases h1 : c = '\x7d' ∧ b = true
        · simp only [if_pos h1]
        simp only [if_neg h1]
        by_cases h2 : c = '"'
        · simp only [if_pos h2]
          cases hstr : scanString .lit rest with
          | error e => rfl
          | ok p =>
            obtain ⟨key, r1⟩ := p
            have hp1 := scanString_progress _ _ _ _ hstr
            have hs1 := skipSpace_length r1
            simp only []
            cases hsk1 : skipSpace r1 with
            | nil => rfl
            | cons c1 r2 =>
              rw [hsk1] at hs1
              simp only [List.length_cons] at hs1
              simp only []
              by_cases h3 : c1 = ':'
              · simp only [if_pos h3]
                rw [ihV depth r2 (by omega)]
                cases hv : scanValue n depth r2 with
                | error e => rfl
                | ok pv =>
                  obtain ⟨v, r3⟩ := pv
                  have hp3 := (scan_progress n).1 _ _ _ _ hv
                  have hs3 := skipSpace_length r3
                  simp only []
                  cases hsk3 : skipSpace r3 with
                  | nil => rfl
                  | cons c2 r4 =>
                    rw [hsk3] at hs3
                    simp only [List.length_cons] at hs3
                    simp only []
                    rw [ihO depth false r4 (by omega)]
              · simp only [if_neg h3]
        · simp only [if_neg h2]
    · intro depth b cs hlt
      conv_lhs => rw [scanArray]
      conv_rhs => rw [scanArray]
      have hs := skipSpace_length cs
      cases hsk : skipSpace cs with
      | nil => rfl
      | cons c rest =>
        rw [hsk] at hs
        simp only [List.length_cons] at hs
        simp only []
        by_cases h1 : c = ']' ∧ b = true
        · simp only [if_pos h1]
        simp only [if_neg h1]
        rw [ihV depth (c :: rest) (by simp only [List.length_cons]; omega)]
        cases hv : scanValue n depth (c :: rest) with
        | error e => rfl
        | ok pv =>
          obtain ⟨v, r1⟩ := pv
          have hp1 := (scan_progress n).1 _ _ _ _ hv
          simp only [List.length_cons] at hp1
          have hs1 := skipSpace_length r1
          simp only []
          cases hsk1 : skipSpace r1 with
          | nil => rfl
          | cons c1 r2 =>
            rw [hsk1] at hs1
            simp only [List.length_cons] at hs1
            simp only []
            rw [ihA depth false r2 (by omega)]

/-- The scan of a value does not depend on the fuel once it is above twice the
length of the input. -/
theorem scanValue_fuel (depth : Nat) (cs : List Char) (k : Nat) :
    scanValue (2 * cs.length + 1 + k) depth cs = scanValue (2 * cs.length + 1) depth cs := by
  induction k with
  | zero => rfl
  | succ k ih =>
    rw [← ih]
    exact (scan_fuel_succ (2 * cs.length + 1 + k)).1 depth cs (by omega)

/-- The scan of an object does not depend on the fuel once it is above twice the
length of the input. -/
theorem scanObject_fuel (depth : Nat) (b : Bool) (cs : List Char) (k : Nat) :
    scanObject (2 * cs.length + 2 + k) depth b cs =
      scanObject (2 * cs.length + 2) depth b cs := by
  induction k with
  | zero => rfl
  | succ k ih =>
    rw [← ih]
    exact (scan_fuel_succ (2 * cs.length + 2 + k)).2.1 depth b cs (by omega)

end JSON

/-! ## The loader -/

theorem decodeAll_fuel (fuel₁ : Nat) :
    ∀ (fuel₂ : Nat) (input : List Char), input.length < fuel₁ → input.length < fuel₂ →
      decodeAll fuel₁ input = decodeAll fuel₂ input := by
  induction fuel₁ with
  | zero => intro fuel₂ input h; omega
  | succ n ih =>
    intro fuel₂ input h₁ h₂
    cases fuel₂ with
    | zero => omega
    | succ m =>
      simp only [decodeAll]
      cases hd : JSON.Decode input with
      | error e => rfl
      | ok p =>
        obtain ⟨r, rest⟩ := p
        have := JSON.Decode_progress hd
        simp only
        rw [ih m rest (by omega) (by omega)]

/-- The records of a log are the record of the first `Decode` and the records of
the input it leaves; a failing `Decode` ends them. -/
theorem decodeStream_eq (file : List Char) :
    decodeStream file =
      match JSON.Decode file with
      | .ok (r, rest) => (r :: (decodeStream rest).1, (decodeStream rest).2)
      | .error e => ([], e) := by
  cases hd : JSON.Decode file with
  | error e =>
    show decodeAll (file.length + 1) file = _
    simp only [decodeAll, hd]
  | ok p =>
    obtain ⟨r, rest⟩ := p
    have hlt := JSON.Decode_progress hd
    have h1 : decodeAll (file.length + 1) file =
        (r :: (decodeAll file.length rest).1, (decodeAll file.length rest).2) := by
      rw [decodeAll.eq_2, hd]
    show decodeAll (file.length + 1) file = _
    rw [h1]
    show _ = (r :: (decodeAll (rest.length + 1) rest).1, (decodeAll (rest.length + 1) rest).2)
    rw [decodeAll_fuel file.length (rest.length + 1) rest (by omega) (by omega)]

theorem decodeStream_of_ok {file rest : List Char} {r : record}
    (h : JSON.Decode file = .ok (r, rest)) :
    decodeStream file = (r :: (decodeStream rest).1, (decodeStream rest).2) := by
  rw [decodeStream_eq file, h]

theorem decodeStream_of_error {file : List Char} {e : GoError}
    (h : JSON.Decode file = .error e) : decodeStream file = ([], e) := by
  rw [decodeStream_eq file, h]

theorem loadLoop_eq_decodeAll (fuel : Nat) :
    ∀ (s : URLStore) (input : List Char),
      loadLoop fuel s input =
        ((decodeAll fuel input).1.foldl setRecord s, (decodeAll fuel input).2) := by
  induction fuel with
  | zero => intro s input; rfl
  | succ n ih =>
    intro s input
    simp only [loadLoop, decodeAll]
    cases hd : JSON.Decode input with
    | error e => rfl
    | ok p =>
      obtain ⟨r, rest⟩ := p
      simp only [ih, List.foldl_cons, setRecord]

theorem loadLoop_eq (s : URLStore) (file : List Char) :
    loadLoop (file.length + 1) s file =
      ((decodeStream file).1.foldl setRecord s, (decodeStream file).2) :=
  loadLoop_eq_decodeAll _ s file

theorem load_fst (s : URLStore) (file : List Char) :
    (load s file).1 = (decodeStream file).1.foldl setRecord s := by
  unfold load
  split <;> simp [loadLoop_eq]

theorem load_snd (s : URLStore) (file : List Char) :
    (load s file).2 =
      if (decodeStream file).2 = .EOF then none else some (decodeStream file).2 := by
  unfold load
  split <;> rename_i h <;> simp only [loadLoop_eq] at h <;> simp [loadLoop_eq, h]

/-! ### A run of `Set` over records -/

theorem lookup_foldl_setRecord (rs : List record) :
    ∀ (s : URLStore) (k v : String), s.urls.lookup k = some v →
      (rs.foldl setRecord s).urls.lookup k = some v := by
  induction rs with
  | nil => intro s k v h; exact h
  | cons r rs ih =>
    intro s k v h
    exact ih _ k v (URLStore.lookup_Set_of_lookup r.Key r.URL h)

theorem saver_foldl_setRecord (rs : List record) :
    ∀ (s : URLStore), (rs.foldl setRecord s).saver = s.saver := by
  induction rs with
  | nil => intro s; rfl
  | cons r rs ih =>
    intro s
    rw [List.foldl_cons, ih, setRecord, URLStore.Set_saver]

theorem lookup_setRecord_of_not_mem {s : URLStore} {r : record} (h : r.Key ∉ s.urls) :
    (setRecord s r).urls.lookup r.Key = some r.URL :=
  URLStore.lookup_Set_of_not_mem r.URL h

theorem not_mem_foldl_setRecord (rs : List record) :
    ∀ (s : URLStore) (k : String), k ∉ s.urls → (∀ q ∈ rs, q.Key ≠ k) →
      k ∉ (rs.foldl setRecord s).urls := by
  induction rs with
  | nil => intro s k h _; exact h
  | cons r rs ih =>
    intro s k h hq
    refine ih _ k ?_ (fun q hq' => hq q (List.mem_cons_of_mem _ hq'))
    have hne : k ≠ r.Key := fun e => hq r (List.mem_cons_self _ _) e.symm
    rw [← Finmap.lookup_eq_none, setRecord, URLStore.lookup_Set_of_ne s r.URL hne]
    exact Finmap.lookup_eq_none.2 h

/-- A record whose key is new when it is offered is in the map at the end. -/
theorem lookup_foldl_setRecord_first (pre post : List record) (r : record) (s : URLStore)
    (hs : r.Key ∉ s.urls) (hpre : ∀ q ∈ pre, q.Key ≠ r.Key) :
    ((pre ++ r :: post).foldl setRecord s).urls.lookup r.Key = some r.URL := by
  rw [List.foldl_append, List.foldl_cons]
  exact lookup_foldl_setRecord post _ _ _
    (lookup_setRecord_of_not_mem (not_mem_foldl_setRecord pre s r.Key hs hpre))

theorem mem_foldl_setRecord (rs : List record) :
    ∀ (s : URLStore) (r : record), r ∈ rs → r.Key ∈ (rs.foldl setRecord s).urls := by
  induction rs with
  | nil => intro s r h; simp at h
  | cons q rs ih =>
    intro s r h
    rcases List.mem_cons.1 h with rfl | h
    · obtain ⟨v, hv⟩ := Finmap.mem_iff.1 (URLStore.mem_Set s r.Key r.URL)
      exact Finmap.mem_of_lookup_eq_some (lookup_foldl_setRecord rs _ _ v hv)
    · exact ih _ r h

/-- The map after a run of `Set` over records: a key of the store keeps its URL, and
a new key gets the URL of the first record that has it. -/
theorem lookup_foldl_setRecord_eq (rs : List record) :
    ∀ (s : URLStore) (k : String), (rs.foldl setRecord s).urls.lookup k =
      match s.urls.lookup k with
      | some v => some v
      | none => (rs.find? (fun r => decide (r.Key = k))).map (fun r => r.URL) := by
  induction rs with
  | nil =>
    intro s k
    cases h : s.urls.lookup k <;> simp [h]
  | cons r rs ih =>
    intro s k
    rw [List.foldl_cons, ih (setRecord s r) k]
    cases h : s.urls.lookup k with
    | some v =>
      rw [setRecord, URLStore.lookup_Set_of_lookup r.Key r.URL h]
    | none =>
      by_cases hk : r.Key = k
      · subst hk
        rw [lookup_setRecord_of_not_mem (Finmap.lookup_eq_none.1 h)]
        simp
      · have hne : k ≠ r.Key := fun e => hk e.symm
        rw [setRecord, URLStore.lookup_Set_of_ne s r.URL hne, h]
        simp [List.find?_cons, hk]

/-- C9, as the code has it: `load` offers to `Set`, in order, the records that
decode before the first failing `Decode`, and it returns nil exactly when that
failure is `io.EOF` and the failure itself otherwise. Nothing is rolled back, but
not every decoded record is in the map afterwards: a key that the store held keeps
its URL, and a new key maps to the URL of the first decoded record that has it; a
later record of the same key is offered and refused. -/
theorem load_spec (s : URLStore) (file : List Char) :
    (load s file).1 = (decodeStream file).1.foldl setRecord s ∧
    ((load s file).2 = none ↔ (decodeStream file).2 = GoError.EOF) ∧
    ((decodeStream file).2 ≠ GoError.EOF → (load s file).2 = some (decodeStream file).2) ∧
    (∀ r ∈ (decodeStream file).1, r.Key ∈ (load s file).1.urls) ∧
    (∀ k, (load s file).1.urls.lookup k =
      match s.urls.lookup k with
      | some v => some v
      | none => ((decodeStream file).1.find? (fun r => decide (r.Key = k))).map
          (fun r => r.URL)) ∧
    (∀ pre r post, (decodeStream file).1 = pre ++ r :: post → r.Key ∉ s.urls →
      (∀ q ∈ pre, q.Key ≠ r.Key) → (load s file).1.Get r.Key = r.URL) ∧
    decodeStream file =
      (match JSON.Decode file with
       | .ok (r, rest) => (r :: (decodeStream rest).1, (decodeStream rest).2)
       | .error e => ([], e)) := by
  refine ⟨load_fst s file, ?_, ?_, ?_, ?_, ?_, decodeStream_eq file⟩
  · rw [load_snd]
    by_cases h : (decodeStream file).2 = GoError.EOF <;> simp [h]
  · intro h
    rw [load_snd, if_neg h]
  · intro r hr
    rw [load_fst]
    exact mem_foldl_setRecord _ s r hr
  · intro k
    rw [load_fst]
    exact lookup_foldl_setRecord_eq _ s k
  · intro pre r post hrs hs hpre
    rw [load_fst, hrs]
    exact URLStore.Get_of_lookup (lookup_foldl_setRecord_first pre post r s hs hpre)

theorem lookup_load {s : URLStore} {k v : String} (file : List Char)
    (h : s.urls.lookup k = some v) : (load s file).1.urls.lookup k = some v := by
  rw [load_fst]
  exact lookup_foldl_setRecord _ s k v h

theorem lookup_apply {s : URLStore} {k v : String} (op : Op)
    (h : s.urls.lookup k = some v) : (op.apply s).urls.lookup k = some v := by
  cases op with
  | Set key url => exact URLStore.lookup_Set_of_lookup key url h
  | Put url => exact URLStore.lookup_Put_of_lookup url h
  | Get key => exact h
  | Count => exact h
  | load file => exact lookup_load file h

/-- C6: a key that maps to a URL is present and maps to the same URL after every
sequence of `Set`, `Put`, `Get`, `Count` and `load` operations. -/
theorem no_overwrite (s : URLStore) (k v : String) (ops : List Op)
    (h : s.urls.lookup k = some v) :
    k ∈ (runOps s ops).urls ∧ (runOps s ops).urls.lookup k = some v ∧
      (runOps s ops).Get k = v := by
  have key : ∀ (ops : List Op) (s : URLStore), s.urls.lookup k = some v →
      (runOps s ops).urls.lookup k = some v := by
    intro ops
    induction ops with
    | nil => intro s h; exact h
    | cons op ops ih => intro s h; exact ih _ (lookup_apply op h)
  exact ⟨Finmap.mem_of_lookup_eq_some (key ops s h), key ops s h,
    URLStore.Get_of_lookup (key ops s h)⟩

/-! ## Decoding what the encoder wrote -/

namespace JSON

theorem hexVal_hexDigit : ∀ n, n < 16 → hexVal (hexDigit n) = some n := by
  decide

theorem scanString_hex_escape (n : Nat) (h : n < 256) (rest : List Char) :
    scanString .lit ('\\' :: 'u' :: '0' :: '0' :: hexDigit (n / 16) :: hexDigit (n % 16) :: rest)
      = pushElem (.unit n) (scanString .lit rest) := by
  have h1 : hexVal (hexDigit (n / 16)) = some (n / 16) := hexVal_hexDigit _ (by omega)
  have h2 : hexVal (hexDigit (n % 16)) = some (n % 16) := hexVal_hexDigit _ (by omega)
  have h0 : hexVal '0' = some 0 := by decide
  have hb : ('\\' : Char) ≠ '"' := by decide
  have e : 16 * (16 * (16 * (16 * 0 + 0) + 0) + n / 16) + n % 16 = n := by omega
  simp only [scanString, h0, h1, h2, hb, if_false, if_true]
  simp only [show (4 : Nat) ≤ 1 ↔ False by decide, show (4 - 1 : Nat) ≤ 1 ↔ False by decide,
    show (4 - 1 - 1 : Nat) ≤ 1 ↔ False by decide, show (4 - 1 - 1 - 1 : Nat) ≤ 1 ↔ True by decide,
    if_false, if_true, e]

theorem scanString_escapeChar (c : Char) (rest : List Char) :
    scanString .lit (escapeChar c ++ rest) = pushElem (elemOf c) (scanString .lit rest) := by
  by_cases h1 : c = '"'
  · subst h1; rfl
  by_cases h2 : c = '\\'
  · subst h2; rfl
  by_cases h3 : c = '\x08'
  · subst h3; rfl
  by_cases h4 : c = '\x0c'
  · subst h4; rfl
  by_cases h5 : c = '\n'
  · subst h5; rfl
  by_cases h6 : c = '\r'
  · subst h6; rfl
  by_cases h7 : c = '\t'
  · subst h7; rfl
  by_cases h8 : c.toNat < 0x20 ∨ c = '<' ∨ c = '>' ∨ c = '&'
  · have hlt : c.toNat < 256 := by
      rcases h8 with h | rfl | rfl | rfl
      · omega
      all_goals decide
    have he : escapeChar c =
        ['\\', 'u', '0', '0', hexDigit (c.toNat / 16), hexDigit (c.toNat % 16)] := by
      simp only [escapeChar, h1, h2, h3, h4, h5, h6, h7, h8, if_false, if_true]
    have hu : elemOf c = .unit c.toNat := by
      simp [elemOf, he]
    rw [he, hu]
    exact scanString_hex_escape c.toNat hlt rest
  by_cases h9 : c = '\u2028' ∨ c = '\u2029'
  · rcases h9 with rfl | rfl <;> rfl
  · have he : escapeChar c = [c] := by
      simp only [escapeChar, h1, h2, h3, h4, h5, h6, h7, h8, h9, if_false]
    have hu : elemOf c = .char c := by
      simp [elemOf, he]
    have hc : ¬ c.toNat < 0x20 := fun h => h8 (Or.inl h)
    rw [he, hu]
    show scanString .lit (c :: rest) = _
    simp only [scanString, h1, h2, hc, if_false]

theorem scanString_escape (s : List Char) (rest : List Char) :
    scanString .lit (escape s ++ '"' :: rest) = .ok (s.map elemOf, rest) := by
  induction s with
  | nil => rfl
  | cons c s ih =>
    simp only [escape, List.append_assoc, scanString_escapeChar, ih, List.map_cons, pushElem]

theorem elemOf_cases (c : Char) :
    elemOf c = .char c ∨ (elemOf c = .unit c.toNat ∧ c.toNat < 0xD800) := by
  by_cases h : (escapeChar c).length = 6
  · right
    refine ⟨by simp [elemOf, h], ?_⟩
    by_contra hge
    have hc : ¬ c.toNat < 0x20 := by omega
    have h1 : c ≠ '"' := by rintro rfl; exact hge (by decide)
    have h2 : c ≠ '\\' := by rintro rfl; exact hge (by decide)
    have h3 : c ≠ '\x08' := by rintro rfl; exact hge (by decide)
    have h4 : c ≠ '\x0c' := by rintro rfl; exact hge (by decide)
    have h5 : c ≠ '\n' := by rintro rfl; exact hge (by decide)
    have h6 : c ≠ '\r' := by rintro rfl; exact hge (by decide)
    have h7 : c ≠ '\t' := by rintro rfl; exact hge (by decide)
    have h8 : c ≠ '<' := by rintro rfl; exact hge (by decide)
    have h9 : c ≠ '>' := by rintro rfl; exact hge (by decide)
    have h10 : c ≠ '&' := by rintro rfl; exact hge (by decide)
    have h11 : c ≠ '\u2028' := by rintro rfl; exact hge (by decide)
    have h12 : c ≠ '\u2029' := by rintro rfl; exact hge (by decide)
    simp [escapeChar, h1, h2, h3, h4, h5, h6, h7, h8, h9, h10, h11, h12, hc] at h
  · left
    simp [elemOf, h]

theorem unquote_unit_cons (n : Nat) (h : n < 0xD800) (es : List StrElem) :
    unquote (.unit n :: es) = Char.ofNat n :: unquote es := by
  have h1 : ¬ (0xD800 ≤ n ∧ n < 0xE000) := by omega
  cases es with
  | nil => simp only [unquote, h1, if_false]
  | cons e es =>
    cases e with
    | char c => simp only [unquote, h1, if_false]
    | unit lo =>
      have h2 : ¬ (0xD800 ≤ n ∧ n < 0xDC00 ∧ 0xDC00 ≤ lo ∧ lo < 0xE000) := by omega
      simp only [unquote, h1, h2, if_false]

theorem unquote_elemOf_cons (c : Char) (es : List StrElem) :
    unquote (elemOf c :: es) = c :: unquote es := by
  rcases elemOf_cases c with h | ⟨h, hlt⟩
  · rw [h]; rfl
  · rw [h, unquote_unit_cons _ hlt, Char.ofNat_toNat]

theorem unquote_map_elemOf (s : List Char) : unquote (s.map elemOf) = s := by
  induction s with
  | nil => rfl
  | cons c s ih => rw [List.map_cons, unquote_elemOf_cons, ih]

end JSON

namespace JSON

theorem skipSpace_cons_of_not_space {c : Char} (h : isSpace c = false) (cs : List Char) :
    skipSpace (c :: cs) = c :: cs := by
  simp [skipSpace, h]

/-- The scanner on a string literal that the encoder wrote. -/
theorem scanValue_quote (fuel depth : Nat) (s : String) (rest : List Char) :
    scanValue (fuel + 1) depth (quote s ++ rest) = .ok (.string s, rest) := by
  have h : quote s ++ rest = '"' :: (escape s.data ++ '"' :: rest) := by
    simp [quote]
  rw [h, scanValue, skipSpace_cons_of_not_space (by decide)]
  simp only [scanString_escape, unquote_map_elemOf]
  rfl

theorem scanString_Key (rest : List Char) :
    scanString .lit ('K' :: 'e' :: 'y' :: '"' :: rest) =
      .ok ([.char 'K', .char 'e', .char 'y'], rest) := rfl

theorem scanString_URL (rest : List Char) :
    scanString .lit ('U' :: 'R' :: 'L' :: '"' :: rest) =
      .ok ([.char 'U', .char 'R', .char 'L'], rest) := rfl

theorem Marshal_append (r : record) (rest : List Char) :
    Marshal r ++ rest =
      '\x7b' :: '"' :: 'K' :: 'e' :: 'y' :: '"' :: ':' :: (quote r.Key ++
        (',' :: '"' :: 'U' :: 'R' :: 'L' :: '"' :: ':' :: (quote r.URL ++ ('\x7d' :: rest)))) := by
  simp [Marshal]

/-- The scanner on the second member of an object that the encoder wrote. -/
theorem scanObject_URL (fuel depth : Nat) (url : String) (rest : List Char) :
    scanObject (fuel + 2) depth false
      ('"' :: 'U' :: 'R' :: 'L' :: '"' :: ':' :: (quote url ++ ('\x7d' :: rest)))
      = .ok ([("URL", .string url)], rest) := by
  rw [scanObject, skipSpace_cons_of_not_space (by decide)]
  simp only [scanString_URL]
  rw [skipSpace_cons_of_not_space (by decide)]
  simp only [scanValue_quote]
  rw [skipSpace_cons_of_not_space (by decide)]
  rfl

/-- The scanner on the members of an object that the encoder wrote. -/
theorem scanObject_Marshal (fuel depth : Nat) (r : record) (rest : List Char) :
    scanObject (fuel + 3) depth true
      ('"' :: 'K' :: 'e' :: 'y' :: '"' :: ':' :: (quote r.Key ++
        (',' :: '"' :: 'U' :: 'R' :: 'L' :: '"' :: ':' :: (quote r.URL ++ ('\x7d' :: rest)))))
      = .ok ([("Key", .string r.Key), ("URL", .string r.URL)], rest) := by
  rw [scanObject, skipSpace_cons_of_not_space (by decide)]
  simp only [scanString_Key]
  rw [skipSpace_cons_of_not_space (by decide)]
  simp only [scanValue_quote]
  rw [skipSpace_cons_of_not_space (by decide)]
  simp only [scanObject_URL]
  rfl

/-- `Decode` on the object of a record, whatever follows it: the record, and what
follows. -/
theorem Decode_Marshal (r : record) (rest : List Char) :
    Decode (Marshal r ++ rest) = .ok (r, rest) := by
  rw [Marshal_append, Decode, skipSpace_cons_of_not_space (by decide)]
  have hlen : ∃ n, 2 * ('"' :: 'K' :: 'e' :: 'y' :: '"' :: ':' :: (quote r.Key ++
        (',' :: '"' :: 'U' :: 'R' :: 'L' :: '"' :: ':' :: (quote r.URL ++
          ('\x7d' :: rest))))).length + 2 = n + 3 := by
    refine ⟨2 * ('K' :: 'e' :: 'y' :: '"' :: ':' :: (quote r.Key ++
        (',' :: '"' :: 'U' :: 'R' :: 'L' :: '"' :: ':' :: (quote r.URL ++
          ('\x7d' :: rest))))).length + 1, ?_⟩
    rw [List.length_cons]
    omega
  obtain ⟨n, hn⟩ := hlen
  simp only [hn, scanObject_Marshal]
  rfl

/-- `Decode` on what `Encode` wrote for a record, whatever follows it: the record,
and the newline with what follows. -/
theorem Decode_Encode (r : record) (rest : List Char) :
    Decode (Encode r ++ rest) = .ok (r, '\n' :: rest) := by
  have h : Encode r ++ rest = Marshal r ++ '\n' :: rest := by
    simp [Encode]
  rw [h, Decode_Marshal]

/-- `Decode` skips a newline in front of the input. -/
theorem Decode_newline (input : List Char) : Decode ('\n' :: input) = Decode input := by
  have h : skipSpace ('\n' :: input) = skipSpace input := by
    simp [skipSpace, isSpace]
  simp only [Decode, h]

theorem Decode_nil : Decode [] = .error .EOF := rfl

/-! ### Values that are not objects -/

/-- A `null` ends at the first character that does not continue it: `Decode` gives
the empty record and leaves the object that follows for the next call. -/
theorem Decode_null_object :
    Decode "null\x7b\"Key\":\"x\",\"URL\":\"u\"\x7d".data =
      .ok (⟨"", ""⟩, "\x7b\"Key\":\"x\",\"URL\":\"u\"\x7d".data) := rfl

/-- A `null` followed by a letter gives the empty record and leaves the letter. -/
theorem Decode_null_letter : Decode "nullx".data = .ok (⟨"", ""⟩, ['x']) := rfl

/-- A number followed by a letter is a number: an error of type for a record. -/
theorem Decode_number_letter : Decode "1x".data = .error .UnmarshalTypeError := rfl

/-- A literal name cut short by another character is a syntax error. -/
theorem Decode_bad_literal : Decode "nulx".data = .error .SyntaxError := rfl

end JSON

/-- On `null` followed by an object `load` returns nil, and the store holds the empty
key and the key of the object. -/
theorem load_null_object :
    (load URLStore.empty "null\x7b\"Key\":\"x\",\"URL\":\"u\"\x7d".data).2 = none ∧
    (load URLStore.empty "null\x7b\"Key\":\"x\",\"URL\":\"u\"\x7d".data).1.Count = 2 ∧
    (load URLStore.empty "null\x7b\"Key\":\"x\",\"URL\":\"u\"\x7d".data).1.Get "x"
      = "u" := by
  decide

/-! ## A log cut in its last record -/

namespace JSON

/-- The scanner on a string literal cut before its closing quote. -/
theorem scanString_truncated (p : List Char) :
    ∀ (st : StrState) (q : List Char) (es : List StrElem) (rest : List Char),
      scanString st (p ++ q) = .ok (es, rest) → rest.length < q.length →
      scanString st p = .error .ErrUnexpectedEOF := by
  induction p with
  | nil => intro st q es rest _ _; cases st <;> rfl
  | cons c p ih =>
    intro st q es rest h hlt
    rw [List.cons_append] at h
    cases st with
    | lit =>
      by_cases h1 : c = '"'
      · simp only [scanString, h1, if_true, Except.ok.injEq, Prod.mk.injEq] at h
        rw [← h.2, List.length_append] at hlt
        omega
      by_cases h2 : c = '\\'
      · simp only [scanString, h1, h2, if_false, if_true] at h ⊢
        exact ih _ _ _ _ h hlt
      by_cases h3 : c.toNat < 0x20
      · simp [scanString, h1, h2, h3] at h
      · simp only [scanString, h1, h2, h3, if_false] at h ⊢
        obtain ⟨es', h', _⟩ := pushElem_ok h
        rw [ih _ _ _ _ h' hlt]
        rfl
    | esc =>
      by_cases h1 : c = 'u'
      · simp only [scanString, h1, if_true] at h ⊢
        exact ih _ _ _ _ h hlt
      · simp only [scanString, h1, if_false] at h ⊢
        cases hu : unescape c with
        | none => simp [hu] at h
        | some d =>
          simp only [hu] at h ⊢
          obtain ⟨es', h', _⟩ := pushElem_ok h
          rw [ih _ _ _ _ h' hlt]
          rfl
    | hex k acc =>
      simp only [scanString] at h ⊢
      cases hv : hexVal c with
      | none => simp [hv] at h
      | some v =>
        simp only [hv] at h ⊢
        by_cases hk : k ≤ 1
        · simp only [hk, if_true] at h ⊢
          obtain ⟨es', h', _⟩ := pushElem_ok h
          rw [ih _ _ _ _ h' hlt]
          rfl
        · simp only [hk, if_false] at h ⊢
          exact ih _ _ _ _ h hlt

/-- The scanner on a cut of a string literal that the encoder wrote, followed by
`rest`: an unexpected end when the cut is in the literal, and otherwise the cut
holds the whole literal. -/
theorem scanValue_quote_truncated (fuel depth : Nat) (s : String) (rest t q : List Char)
    (h : t ++ q = quote s ++ rest) :
    scanValue (fuel + 1) depth t = .error .ErrUnexpectedEOF ∨
      ∃ t', t = quote s ++ t' ∧ t' ++ q = rest := by
  have hq : quote s ++ rest = '"' :: (escape s.data ++ '"' :: rest) := by
    simp [quote]
  rw [hq] at h
  rcases List.append_eq_cons_iff.1 h with ⟨rfl, _⟩ | ⟨t1, rfl, h1⟩
  · left; rfl
  · have h1' : t1 ++ q = (escape s.data ++ ['"']) ++ rest := by
      rw [← h1]; simp
    rcases List.append_eq_append_iff.1 h1' with ⟨a, ha, hqa⟩ | ⟨c, hc, hrest⟩
    · by_cases hnil : a = []
      · right
        subst hnil
        refine ⟨[], ?_, ?_⟩
        · simp only [List.append_nil] at ha
          simp [quote, ha]
        · simpa using hqa
      · left
        have hscan : scanString .lit (t1 ++ (a ++ rest)) = .ok (s.data.map elemOf, rest) := by
          rw [← List.append_assoc, ← ha, List.append_assoc]
          exact scanString_escape s.data rest
        have hlt : rest.length < (a ++ rest).length := by
          have : 0 < a.length := List.length_pos.2 hnil
          rw [List.length_append]
          omega
        rw [scanValue, skipSpace_cons_of_not_space (by decide)]
        simp only [scanString_truncated t1 _ _ _ _ hscan hlt]
        rfl
    · right
      exact ⟨c, by simp [quote, hc], hrest.symm⟩

end JSON

namespace JSON

theorem eq_nil_of_append_eq_singleton {t q : List Char} {c : Char} (h : t ++ q = [c])
    (hq : q ≠ []) : t = [] := by
  rcases List.append_eq_cons_iff.1 h with ⟨rfl, _⟩ | ⟨a, _, ha⟩
  · rfl
  · exact absurd (List.append_eq_nil.1 ha.symm).2 hq

/-- The scanner on a cut of the second member that the encoder wrote. -/
theorem scanObject_URL_truncated (fuel depth : Nat) (url : String) (t q : List Char)
    (h : t ++ q = '"' :: 'U' :: 'R' :: 'L' :: '"' :: ':' :: (quote url ++ ['\x7d']))
    (hq : q ≠ []) :
    scanObject (fuel + 2) depth false t = .error .ErrUnexpectedEOF := by
  rcases List.append_eq_cons_iff.1 h with ⟨rfl, _⟩ | ⟨t1, rfl, h1⟩
  · rfl
  rcases List.cons_eq_append_iff.1 h1 with ⟨rfl, _⟩ | ⟨t2, rfl, h2⟩
  · rfl
  rcases List.cons_eq_append_iff.1 h2 with ⟨rfl, _⟩ | ⟨t3, rfl, h3⟩
  · rfl
  rcases List.cons_eq_append_iff.1 h3 with ⟨rfl, _⟩ | ⟨t4, rfl, h4⟩
  · rfl
  rcases List.cons_eq_append_iff.1 h4 with ⟨rfl, _⟩ | ⟨t5, rfl, h5⟩
  · rfl
  rcases List.cons_eq_append_iff.1 h5 with ⟨rfl, _⟩ | ⟨t6, rfl, h6⟩
  · rfl
  rw [scanObject, skipSpace_cons_of_not_space (by decide)]
  simp only [scanString_URL]
  rw [skipSpace_cons_of_not_space (by decide)]
  rcases scanValue_quote_truncated fuel depth url ['\x7d'] t6 q h6.symm with hV | ⟨t', rfl, ht'⟩
  · simp only [hV]
    rfl
  · have := eq_nil_of_append_eq_singleton ht' hq
    subst this
    simp only [scanValue_quote]
    rfl

/-- The scanner on a cut of the members of an object that the encoder wrote. -/
theorem scanObject_Marshal_truncated (fuel depth : Nat) (r : record) (t q : List Char)
    (h : t ++ q = '"' :: 'K' :: 'e' :: 'y' :: '"' :: ':' :: (quote r.Key ++
        (',' :: '"' :: 'U' :: 'R' :: 'L' :: '"' :: ':' :: (quote r.URL ++ ['\x7d']))))
    (hq : q ≠ []) :
    scanObject (fuel + 3) depth true t = .error .ErrUnexpectedEOF := by
  rcases List.append_eq_cons_iff.1 h with ⟨rfl, _⟩ | ⟨t1, rfl, h1⟩
  · rfl
  rcases List.cons_eq_append_iff.1 h1 with ⟨rfl, _⟩ | ⟨t2, rfl, h2⟩
  · rfl
  rcases List.cons_eq_append_iff.1 h2 with ⟨rfl, _⟩ | ⟨t3, rfl, h3⟩
  · rfl
  rcases List.cons_eq_append_iff.1 h3 with ⟨rfl, _⟩ | ⟨t4, rfl, h4⟩
  · rfl
  rcases List.cons_eq_append_iff.1 h4 with ⟨rfl, _⟩ | ⟨t5, rfl, h5⟩
  · rfl
  rcases List.cons_eq_append_iff.1 h5 with ⟨rfl, _⟩ | ⟨t6, rfl, h6⟩
  · rfl
  rw [scanObject, skipSpace_cons_of_not_space (by decide)]
  simp only [scanString_Key]
  rw [skipSpace_cons_of_not_space (by decide)]
  rcases scanValue_quote_truncated (fuel + 1) depth r.Key _ t6 q h6.symm with
    hV | ⟨t', rfl, ht'⟩
  · simp only [hV]
    rfl
  · simp only [scanValue_quote]
    rcases List.append_eq_cons_iff.1 ht' with ⟨rfl, _⟩ | ⟨t7, rfl, h7⟩
    · rfl
    · rw [skipSpace_cons_of_not_space (by decide)]
      simp only [scanObject_URL_truncated fuel depth r.URL t7 q h7.symm hq]
      rfl

end JSON

namespace JSON

/-- `Decode` on a record cut before its closing brace: an unexpected end. -/
theorem Decode_truncated (r : record) (p q : List Char) (h : p ++ q = Marshal r)
    (hp : p ≠ []) (hq : q ≠ []) : Decode p = .error .ErrUnexpectedEOF := by
  have hM := Marshal_append r []
  rw [List.append_nil] at hM
  rw [hM] at h
  rcases List.append_eq_cons_iff.1 h with ⟨rfl, _⟩ | ⟨t, rfl, ht⟩
  · exact absurd rfl hp
  rcases List.cons_eq_append_iff.1 ht with ⟨rfl, _⟩ | ⟨t1, rfl, h1⟩
  · rfl
  rcases List.cons_eq_append_iff.1 h1 with ⟨rfl, _⟩ | ⟨t2, rfl, h2⟩
  · rfl
  rw [Decode, skipSpace_cons_of_not_space (by decide)]
  have hfuel : 2 * ('"' :: 'K' :: t2).length + 2 = (2 * t2.length + 3) + 3 := by
    simp only [List.length_cons]
    omega
  simp only [hfuel, scanObject_Marshal_truncated (2 * t2.length + 3) 1 r _ q ht.symm hq]
  rfl

end JSON

theorem decodeStream_nil : decodeStream [] = ([], GoError.EOF) := rfl

theorem decodeStream_newline (input : List Char) :
    decodeStream ('\n' :: input) = decodeStream input := by
  rw [decodeStream_eq ('\n' :: input), decodeStream_eq input, JSON.Decode_newline]

theorem decodeStream_Encode_append (r : record) (input : List Char) :
    decodeStream (JSON.Encode r ++ input) =
      (r :: (decodeStream input).1, (decodeStream input).2) := by
  rw [decodeStream_of_ok (JSON.Decode_Encode r input), decodeStream_newline]

/-- The records of a log that starts with what the writer appended for `rs`. -/
theorem decodeStream_encodeAll_append (rs : List record) (input : List Char) :
    decodeStream (encodeAll rs ++ input) =
      (rs ++ (decodeStream input).1, (decodeStream input).2) := by
  induction rs with
  | nil => rfl
  | cons r rs ih =>
    rw [encodeAll, List.append_assoc, decodeStream_Encode_append, ih]
    rfl

theorem decodeStream_encodeAll (rs : List record) :
    decodeStream (encodeAll rs) = (rs, GoError.EOF) := by
  have h := decodeStream_encodeAll_append rs []
  rw [List.append_nil, decodeStream_nil, List.append_nil] at h
  exact h

theorem encodeAll_append (a b : List record) :
    encodeAll (a ++ b) = encodeAll a ++ encodeAll b := by
  induction a with
  | nil => rfl
  | cons r a ih => simp [encodeAll, ih]

theorem load_encodeAll (s : URLStore) (rs : List record) :
    load s (encodeAll rs) = (rs.foldl setRecord s, none) := by
  apply Prod.ext
  · rw [load_fst, decodeStream_encodeAll]
  · rw [load_snd, decodeStream_encodeAll]
    rfl

theorem NewURLStore_encodeAll (rs : List record) :
    NewURLStore (encodeAll rs) = rs.foldl setRecord URLStore.empty := by
  rw [NewURLStore, load_encodeAll]

/-- C5, as the code has it: on a log of complete records followed by a record cut
before its closing brace, `load` offers every complete record to `Set` and stops,
and it returns `io.ErrUnexpectedEOF`, not nil; the store of `NewURLStore` holds
the complete records. -/
theorem load_truncated (s : URLStore) (rs : List record) (r : record) (p q : List Char)
    (h : p ++ q = JSON.Marshal r) (hp : p ≠ []) (hq : q ≠ []) :
    (load s (encodeAll rs ++ p)).1 = rs.foldl setRecord s ∧
    (load s (encodeAll rs ++ p)).2 = some GoError.ErrUnexpectedEOF ∧
    (decodeStream (encodeAll rs ++ p)).1 = rs ∧
    NewURLStore (encodeAll rs ++ p) = NewURLStore (encodeAll rs) ∧
    (∀ x ∈ rs, x.Key ∈ (load s (encodeAll rs ++ p)).1.urls) := by
  have hd : decodeStream (encodeAll rs ++ p) = (rs, GoError.ErrUnexpectedEOF) := by
    rw [decodeStream_encodeAll_append,
      decodeStream_of_error (JSON.Decode_truncated r p q h hp hq), List.append_nil]
  have h1 : (load s (encodeAll rs ++ p)).1 = rs.foldl setRecord s := by
    rw [load_fst, hd]
  refine ⟨h1, ?_, by rw [hd], ?_, ?_⟩
  · rw [load_snd, hd]
    rfl
  · rw [NewURLStore, load_fst, hd, NewURLStore_encodeAll]
  · intro x hx
    rw [h1]
    exact mem_foldl_setRecord rs s x hx

/-- A log whose last record lacks only the final newline holds that record: `load`
offers it to `Set` and returns nil. -/
theorem load_missing_newline (s : URLStore) (rs : List record) (r : record) :
    load s (encodeAll rs ++ JSON.Marshal r) = ((rs ++ [r]).foldl setRecord s, none) := by
  have hd : decodeStream (encodeAll rs ++ JSON.Marshal r) = (rs ++ [r], GoError.EOF) := by
    have h := JSON.Decode_Marshal r []
    rw [List.append_nil] at h
    rw [decodeStream_encodeAll_append, decodeStream_of_ok h, decodeStream_nil]
  apply Prod.ext
  · rw [load_fst, hd]
  · rw [load_snd, hd]
    rfl

/-! ## Restart -/

theorem Put_error_eq_none_iff (s : URLStore) (u : String) :
    (s.Put u).2.2 = none ↔ genKey u ∉ s.urls := by
  by_cases h : genKey u ∈ s.urls
  · simp [URLStore.Put_of_mem h, h]
  · simp [URLStore.Put_of_not_mem h, h]

theorem NewURLStore_saver (file : List Char) : (NewURLStore file).saver = [] := by
  rw [NewURLStore, load_fst, saver_foldl_setRecord]
  rfl

/-- C4, as the code has it: when the log is a sequence of complete records as the
writer appends them, and `Put` succeeds on the store loaded from it, the writer
appends the record of the URL, and a store loaded from the new log maps the key of
the URL to the URL. -/
theorem restart_roundtrip (rs : List record) (u : String)
    (h : ((NewURLStore (encodeAll rs)).Put u).2.2 = none) :
    (saveLoop ((NewURLStore (encodeAll rs)).Put u).1 (encodeAll rs)).2 =
      encodeAll rs ++ JSON.Encode ⟨genKey u, u⟩ ∧
    (load URLStore.empty (encodeAll rs ++ JSON.Encode ⟨genKey u, u⟩)).2 = none ∧
    (NewURLStore (encodeAll rs ++ JSON.Encode ⟨genKey u, u⟩)).Get (genKey u) = u := by
  have hk : genKey u ∉ (NewURLStore (encodeAll rs)).urls := (Put_error_eq_none_iff _ u).1 h
  have hs : ((NewURLStore (encodeAll rs)).Put u).1.saver = [⟨genKey u, u⟩] := by
    rw [URLStore.Put_of_not_mem hk, NewURLStore_saver]
    rfl
  have hfile : encodeAll rs ++ JSON.Encode ⟨genKey u, u⟩ = encodeAll (rs ++ [⟨genKey u, u⟩]) := by
    rw [encodeAll_append]
    simp [encodeAll]
  refine ⟨?_, ?_, ?_⟩
  · simp only [saveLoop, hs]
  · rw [hfile, load_encodeAll]
  · rw [hfile, NewURLStore_encodeAll]
    apply URLStore.Get_of_lookup
    refine lookup_foldl_setRecord_first rs [] ⟨genKey u, u⟩ URLStore.empty
      Finmap.not_mem_empty ?_
    intro q hq hqk
    apply hk
    rw [NewURLStore_encodeAll]
    have := mem_foldl_setRecord rs URLStore.empty q hq
    rwa [hqk] at this

set_option maxRecDepth 100000 in
/-- Witness of `restart_roundtrip`: a log of one record, and the URL `a`. -/
theorem restart_roundtrip_witness :
    ((NewURLStore (encodeAll [⟨"k", "v"⟩])).Put "a").2.2 = none ∧
    (NewURLStore (encodeAll [⟨"k", "v"⟩] ++ JSON.Encode ⟨genKey "a", "a"⟩)).Get (genKey "a")
      = "a" :=
  ⟨by decide, (restart_roundtrip [⟨"k", "v"⟩] "a" (by decide)).2.2⟩

set_option maxRecDepth 100000 in
/-- C4 fails on a log that ends in a cut record: the store starts empty, `Put`
succeeds on the URL `u`, the writer appends its record after the cut record, and
a store loaded from the new log does not hold the key. -/
theorem restart_roundtrip_counterexample :
    ((NewURLStore "\x7b\"Key\":\"k\",\"URL\":\"v".data).Put "u").2 = (genKey "u", none) ∧
    (saveLoop ((NewURLStore "\x7b\"Key\":\"k\",\"URL\":\"v".data).Put "u").1
        "\x7b\"Key\":\"k\",\"URL\":\"v".data).2 =
      "\x7b\"Key\":\"k\",\"URL\":\"v".data ++ JSON.Encode ⟨genKey "u", "u"⟩ ∧
    (NewURLStore ("\x7b\"Key\":\"k\",\"URL\":\"v".data ++ JSON.Encode ⟨genKey "u", "u"⟩)).Get
        (genKey "u") = "" ∧
    (NewURLStore ("\x7b\"Key\":\"k\",\"URL\":\"v".data ++ JSON.Encode ⟨genKey "u", "u"⟩)).Get
        (genKey "u") ≠ "u" := by
  decide

/-- C5 fails on a log of one complete record followed by a record cut in its key:
`load` returns `io.ErrUnexpectedEOF`, which is not nil. -/
theorem load_truncated_counterexample :
    "\x7b\"Key\":\"k\",\"URL\":\"v\"\x7d\n\x7b\"Key\":\"a".data =
      encodeAll [⟨"k", "v"⟩] ++ (JSON.Marshal ⟨"a", "b"⟩).take 9 ∧
    (load URLStore.empty "\x7b\"Key\":\"k\",\"URL\":\"v\"\x7d\n\x7b\"Key\":\"a".data).2
      = some GoError.ErrUnexpectedEOF ∧
    (load URLStore.empty "\x7b\"Key\":\"k\",\"URL\":\"v\"\x7d\n\x7b\"Key\":\"a".data).2
      ≠ none := by
  decide

/-- Witness of `load_truncated`: one complete record, then a record cut in its key. -/
theorem load_truncated_witness :
    (load URLStore.empty (encodeAll [⟨"k", "v"⟩] ++ "\x7b\"Key\":\"a".data)).1 =
      [(⟨"k", "v"⟩ : record)].foldl setRecord URLStore.empty ∧
    (load URLStore.empty (encodeAll [⟨"k", "v"⟩] ++ "\x7b\"Key\":\"a".data)).2 =
      some GoError.ErrUnexpectedEOF :=
  ⟨(load_truncated URLStore.empty [⟨"k", "v"⟩] ⟨"a", "b"⟩ "\x7b\"Key\":\"a".data
      "\",\"URL\":\"b\"\x7d".data (by decide) (by decide) (by decide)).1,
    (load_truncated URLStore.empty [⟨"k", "v"⟩] ⟨"a", "b"⟩ "\x7b\"Key\":\"a".data
      "\",\"URL\":\"b\"\x7d".data (by decide) (by decide) (by decide)).2.1⟩

/-! ## Keys and hashes -/

theorem lookup_Set_cases {s : URLStore} {key url k v : String}
    (h : (s.Set key url).1.urls.lookup k = some v) :
    (k = key ∧ v = url) ∨ s.urls.lookup k = some v := by
  by_cases hk : key ∈ s.urls
  · right
    simpa [URLStore.Set, hk] using h
  · by_cases hkk : k = key
    · left
      subst hkk
      rw [URLStore.lookup_Set_of_not_mem url hk] at h
      exact ⟨rfl, (Option.some.inj h).symm⟩
    · right
      rwa [URLStore.lookup_Set_of_ne s url hkk] at h

theorem keyIsHash_foldl_setRecord (rs : List record) :
    ∀ (s : URLStore), (∀ k v, s.urls.lookup k = some v → k = genKey v) →
      (∀ r ∈ rs, r.Key = genKey r.URL) →
      ∀ k v, (rs.foldl setRecord s).urls.lookup k = some v → k = genKey v := by
  induction rs with
  | nil => intro s hs _; exact hs
  | cons r rs ih =>
    intro s hs hr
    refine ih (setRecord s r) ?_ (fun q hq => hr q (List.mem_cons_of_mem _ hq))
    intro k v hkv
    rcases lookup_Set_cases hkv with ⟨rfl, rfl⟩ | h
    · exact hr r (List.mem_cons_self _ _)
    · exact hs k v h

theorem keyIsHash_putAll (urls : List String) :
    ∀ (s : URLStore), (∀ k v, s.urls.lookup k = some v → k = genKey v) →
      ∀ k v, (putAll s urls).urls.lookup k = some v → k = genKey v := by
  induction urls with
  | nil => intro s hs; exact hs
  | cons u urls ih =>
    intro s hs
    refine ih (s.Put u).1 ?_
    intro k v hkv
    rw [URLStore.Put_urls] at hkv
    rcases lookup_Set_cases hkv with ⟨rfl, rfl⟩ | h
    · rfl
    · exact hs k v h

/-- C7, as the code has it: when every record that `load` decodes from the log has
the hash of its URL as its key, then after `NewURLStore` and any sequence of `Put`
calls every entry of the map has the hash of its URL as its key. `load` does not
check the keys of the log. The log and the URLs are valid UTF-8, as all strings of
the model. -/
theorem key_is_hash (file : List Char) (urls : List String)
    (h : ∀ r ∈ (decodeStream file).1, r.Key = genKey r.URL) (k v : String)
    (hkv : (putAll (NewURLStore file) urls).urls.lookup k = some v) : k = genKey v := by
  refine keyIsHash_putAll urls (NewURLStore file) ?_ k v hkv
  rw [NewURLStore, load_fst]
  refine keyIsHash_foldl_setRecord _ URLStore.empty ?_ h
  intro k v hkv
  simp [URLStore.empty, Finmap.lookup_empty] at hkv

set_option maxRecDepth 100000 in
/-- Witness of `key_is_hash`: the log that the writer made of the URL `a`, then a
call of `Put` on the URL `b`. -/
theorem key_is_hash_witness :
    (putAll (NewURLStore (encodeAll [⟨genKey "a", "a"⟩])) ["b"]).urls.lookup
        "ca978112ca1bbdcafac231b39a23dc4da786eff8147c4e72b9807785afee48bb" = some "a" ∧
    "ca978112ca1bbdcafac231b39a23dc4da786eff8147c4e72b9807785afee48bb" = genKey "a" :=
  ⟨by decide, key_is_hash (encodeAll [⟨genKey "a", "a"⟩]) ["b"]
    (by
      intro r hr
      rw [decodeStream_encodeAll] at hr
      rw [List.mem_singleton.1 hr])
    _ "a" (by decide)⟩

/-- C7 fails on a log with a record whose key is not the hash of its URL: after
`NewURLStore` the map holds `x -> u`, and the key of `u` has 64 characters. -/
theorem key_is_hash_counterexample :
    (putAll (NewURLStore "\x7b\"Key\":\"x\",\"URL\":\"u\"\x7d\n".data) []).urls.lookup "x"
      = some "u" ∧ "x" ≠ genKey "u" :=
  ⟨by decide, fun h => absurd (congrArg String.length h) (by rw [genKey_length]; decide)⟩

/-! ## The running process -/

theorem lookup_foldl_setRecord_of_functional (rs : List record) :
    ∀ (s : URLStore), (∀ r₁ ∈ rs, ∀ r₂ ∈ rs, r₁.Key = r₂.Key → r₁.URL = r₂.URL) →
      (∀ r ∈ rs, ∀ v, s.urls.lookup r.Key = some v → v = r.URL) →
      ∀ r ∈ rs, (rs.foldl setRecord s).urls.lookup r.Key = some r.URL := by
  induction rs with
  | nil => intro s _ _ r hr; simp at hr
  | cons q rs ih =>
    intro s hf hs r hr
    have hq : (setRecord s q).urls.lookup q.Key = some q.URL := by
      by_cases hk : q.Key ∈ s.urls
      · obtain ⟨v, hv⟩ := Finmap.mem_iff.1 hk
        have := hs q (List.mem_cons_self _ _) v hv
        subst this
        exact URLStore.lookup_Set_of_lookup _ _ hv
      · exact lookup_setRecord_of_not_mem hk
    rcases List.mem_cons.1 hr with rfl | hr'
    · exact lookup_foldl_setRecord rs _ _ _ hq
    · refine ih (setRecord s q)
        (fun r₁ h₁ r₂ h₂ => hf r₁ (List.mem_cons_of_mem _ h₁) r₂ (List.mem_cons_of_mem _ h₂))
        ?_ r hr'
      intro x hx v hv
      by_cases hxq : x.Key = q.Key
      · rw [hxq, hq] at hv
        rw [← Option.some.inj hv]
        exact (hf x (List.mem_cons_of_mem _ hx) q (List.mem_cons_self _ _) hxq).symm
      · rw [setRecord, URLStore.lookup_Set_of_ne s q.URL hxq] at hv
        exact hs x (List.mem_cons_of_mem _ hx) v hv

/-- The log of a running process is made of records, and these and the records on
the channel are in the map. -/
theorem Process.step_invariant (p : Process) (e : Event)
    (h : ∃ recs, p.file = encodeAll recs ∧
      ∀ r ∈ recs ++ p.store.saver, p.store.urls.lookup r.Key = some r.URL) :
    ∃ recs, (p.step e).file = encodeAll recs ∧
      ∀ r ∈ recs ++ (p.step e).store.saver, (p.step e).store.urls.lookup r.Key = some r.URL := by
  obtain ⟨recs, hfile, hmem⟩ := h
  cases e with
  | Put url =>
    refine ⟨recs, hfile, ?_⟩
    by_cases hk : genKey url ∈ p.store.urls
    · simpa only [Process.step, URLStore.Put_of_mem hk] using hmem
    · intro r hr
      simp only [Process.step, URLStore.Put_of_not_mem hk, ← List.append_assoc,
        List.mem_append, List.mem_singleton] at hr ⊢
      rcases hr with hr | rfl
      · have hne : r.Key ≠ genKey url := by
          intro e
          exact hk (e ▸ Finmap.mem_of_lookup_eq_some (hmem r (List.mem_append.2 hr)))
        rw [Finmap.lookup_insert_of_ne _ hne]
        exact hmem r (List.mem_append.2 hr)
      · exact Finmap.lookup_insert _
  | save =>
    cases hs : p.store.saver with
    | nil =>
      refine ⟨recs, ?_, ?_⟩
      · simpa only [Process.step, saveLoop, hs] using hfile
      · simpa only [Process.step, saveLoop, hs] using (hs ▸ hmem)
    | cons r rs =>
      refine ⟨recs ++ [r], ?_, ?_⟩
      · simp only [Process.step, saveLoop, hs, hfile, encodeAll_append, encodeAll,
          List.append_nil]
      · intro x hx
        simp only [Process.step, saveLoop, hs] at hx ⊢
        apply hmem x
        rw [hs]
        simpa using hx

theorem Process.run_invariant (evs : List Event) :
    ∀ (p : Process), (∃ recs, p.file = encodeAll recs ∧
      ∀ r ∈ recs ++ p.store.saver, p.store.urls.lookup r.Key = some r.URL) →
    ∃ recs, (p.run evs).file = encodeAll recs ∧
      ∀ r ∈ recs ++ (p.run evs).store.saver,
        (p.run evs).store.urls.lookup r.Key = some r.URL := by
  induction evs with
  | nil => intro p h; exact h
  | cons e evs ih => intro p h; exact ih (p.step e) (p.step_invariant e h)

/-- The log that the writer makes keeps the keys hashed: when the log at start is a
sequence of complete records that have the hash of their URL as their key, every
record of the log has, after every sequence of `Put` calls and writer iterations. -/
theorem written_log_hashed (rs : List record) (evs : List Event)
    (h : ∀ r ∈ rs, r.Key = genKey r.URL) :
    ∀ r ∈ (decodeStream ((Process.start (encodeAll rs)).run evs).file).1,
      r.Key = genKey r.URL := by
  have key : ∀ (evs : List Event) (p : Process),
      (∃ recs, p.file = encodeAll recs ∧ ∀ r ∈ recs ++ p.store.saver, r.Key = genKey r.URL) →
      ∃ recs, (p.run evs).file = encodeAll recs ∧
        ∀ r ∈ recs ++ (p.run evs).store.saver, r.Key = genKey r.URL := by
    intro evs
    induction evs with
    | nil => intro p hp; exact hp
    | cons e evs ih =>
      intro p hp
      refine ih (p.step e) ?_
      obtain ⟨recs, hfile, hmem⟩ := hp
      cases e with
      | Put url =>
        refine ⟨recs, hfile, ?_⟩
        by_cases hk : genKey url ∈ p.store.urls
        · simpa only [Process.step, URLStore.Put_of_mem hk] using hmem
        · intro r hr
          simp only [Process.step, URLStore.Put_of_not_mem hk, ← List.append_assoc,
            List.mem_append, List.mem_singleton] at hr
          rcases hr with hr | rfl
          · exact hmem r (List.mem_append.2 hr)
          · rfl
      | save =>
        cases hs : p.store.saver with
        | nil =>
          refine ⟨recs, ?_, ?_⟩
          · simpa only [Process.step, saveLoop, hs] using hfile
          · simpa only [Process.step, saveLoop, hs] using (hs ▸ hmem)
        | cons r rs =>
          refine ⟨recs ++ [r], ?_, ?_⟩
          · simp only [Process.step, saveLoop, hs, hfile, encodeAll_append, encodeAll,
              List.append_nil]
          · intro x hx
            simp only [Process.step, saveLoop, hs] at hx
            apply hmem x
            rw [hs]
            simpa using hx
  have hstart : ∃ recs, (Process.start (encodeAll rs)).file = encodeAll recs ∧
      ∀ r ∈ recs ++ (Process.start (encodeAll rs)).store.saver, r.Key = genKey r.URL := by
    refine ⟨rs, rfl, ?_⟩
    intro x hx
    simp only [Process.start, NewURLStore_saver, List.append_nil] at hx
    exact h x hx
  obtain ⟨recs, hfile, hmem⟩ := key evs _ hstart
  intro r hr
  rw [hfile, decodeStream_encodeAll] at hr
  exact hmem r (List.mem_append_left _ hr)

/-- C8, as the code has it: when the log at start is a sequence of complete records
in which records of one key have one URL, then after `NewURLStore` and after every
sequence of `Put` calls and writer iterations, every record of the log is in the
map. The records of the log and the URLs of the `Put` calls are valid UTF-8, as all
strings of the model: for another URL the encoder writes a record that differs
from the entry of the map. -/
theorem memory_superset (rs : List record) (evs : List Event)
    (h : ∀ r₁ ∈ rs, ∀ r₂ ∈ rs, r₁.Key = r₂.Key → r₁.URL = r₂.URL) (r : record)
    (hr : r ∈ (decodeStream ((Process.start (encodeAll rs)).run evs).file).1) :
    ((Process.start (encodeAll rs)).run evs).store.Get r.Key = r.URL := by
  have hstart : ∃ recs, (Process.start (encodeAll rs)).file = encodeAll recs ∧
      ∀ r ∈ recs ++ (Process.start (encodeAll rs)).store.saver,
        (Process.start (encodeAll rs)).store.urls.lookup r.Key = some r.URL := by
    refine ⟨rs, rfl, ?_⟩
    intro x hx
    simp only [Process.start, NewURLStore_saver, List.append_nil] at hx ⊢
    rw [NewURLStore_encodeAll]
    refine lookup_foldl_setRecord_of_functional rs URLStore.empty h ?_ x hx
    intro y _ v hv
    simp [URLStore.empty, Finmap.lookup_empty] at hv
  obtain ⟨recs, hfile, hmem⟩ := Process.run_invariant evs _ hstart
  rw [hfile, decodeStream_encodeAll] at hr
  exact URLStore.Get_of_lookup (hmem r (List.mem_append_left _ hr))

set_option maxRecDepth 100000 in
/-- Witness of `memory_superset`: a log of one record, a call of `Put` on the URL
`a` and an iteration of the writer; the record of `a` is in the log and in the map. -/
theorem memory_superset_witness :
    (⟨genKey "a", "a"⟩ : record) ∈
      (decodeStream ((Process.start (encodeAll [⟨"k", "v"⟩])).run [.Put "a", .save]).file).1 ∧
    ((Process.start (encodeAll [⟨"k", "v"⟩])).run [.Put "a", .save]).store.Get (genKey "a")
      = "a" :=
  ⟨by decide, memory_superset [⟨"k", "v"⟩] [.Put "a", .save] (by decide) ⟨genKey "a", "a"⟩
    (by decide)⟩

/-- C8 fails on a log with two records of one key: the second record is in the log
and the map holds the URL of the first. -/
theorem memory_superset_counterexample :
    (⟨"k", "b"⟩ : record) ∈ (decodeStream ((Process.start
      "\x7b\"Key\":\"k\",\"URL\":\"a\"\x7d\n\x7b\"Key\":\"k\",\"URL\":\"b\"\x7d\n".data).run
        []).file).1 ∧
    ((Process.start
      "\x7b\"Key\":\"k\",\"URL\":\"a\"\x7d\n\x7b\"Key\":\"k\",\"URL\":\"b\"\x7d\n".data).run
        []).store.Get "k" = "a" ∧
    ((Process.start
      "\x7b\"Key\":\"k\",\"URL\":\"a\"\x7d\n\x7b\"Key\":\"k\",\"URL\":\"b\"\x7d\n".data).run
        []).store.Get "k" ≠ "b" := by
  decide

/-! ## The order of the log -/

theorem Process.run_cons (p : Process) (e : Event) (evs : List Event) :
    p.run (e :: evs) = (p.step e).run evs := rfl

theorem Process.run_append (p : Process) (evs₁ evs₂ : List Event) :
    p.run (evs₁ ++ evs₂) = (p.run evs₁).run evs₂ := by
  simp [Process.run, List.foldl_append]

/-- An iteration of the writer on a channel that holds a record: the encoding of the
oldest record is appended to the file, the record leaves the channel, the map is
as it was. -/
theorem Process.step_save (p : Process) (r : record) (rs : List record)
    (h : p.store.saver = r :: rs) :
    (p.step .save).file = p.file ++ JSON.Encode r ∧ (p.step .save).store.saver = rs ∧
      (p.step .save).store.urls = p.store.urls := by
  simp [Process.step, saveLoop, h]

theorem Process.run_queue (evs : List Event) :
    ∀ (p : Process),
      (p.run evs).file =
        p.file ++ encodeAll ((p.store.saver ++ succeeded p evs).take (received p evs)) ∧
      (p.run evs).store.saver = (p.store.saver ++ succeeded p evs).drop (received p evs) := by
  induction evs with
  | nil =>
    intro p
    simp [Process.run, encodeAll, succeeded, received]
  | cons e evs ih =>
    intro p
    obtain ⟨hfile, hsaver⟩ := ih (p.step e)
    rw [Process.run_cons]
    cases e with
    | Put url =>
      by_cases hk : genKey url ∈ p.store.urls
      · refine ⟨?_, ?_⟩
        · rw [hfile]
          simp [Process.step, succeeded, received, URLStore.Put_of_mem hk]
        · rw [hsaver]
          simp [Process.step, succeeded, received, URLStore.Put_of_mem hk]
      · refine ⟨?_, ?_⟩
        · rw [hfile]
          simp [Process.step, succeeded, received, URLStore.Put_of_not_mem hk]
        · rw [hsaver]
          simp [Process.step, succeeded, received, URLStore.Put_of_not_mem hk]
    | save =>
      cases hs : p.store.saver with
      | nil =>
        have hstep : p.step .save = p := by
          simp [Process.step, saveLoop, hs]
        refine ⟨?_, ?_⟩
        · rw [hfile, hstep]
          simp [succeeded, received, hstep, hs]
        · rw [hsaver, hstep]
          simp [succeeded, received, hstep, hs]
      | cons r rs =>
        obtain ⟨hf, hq, _⟩ := p.step_save r rs hs
        refine ⟨?_, ?_⟩
        · rw [hfile, hf, hq]
          simp [succeeded, received, hs, encodeAll, Nat.add_comm 1]
        · rw [hsaver, hq]
          simp [succeeded, received, hs, Nat.add_comm 1]

/-- Writer iterations, at least as many as there are records on the channel, append
all of them and leave the channel empty. -/
theorem Process.run_drain (k : Nat) :
    ∀ (p : Process), p.store.saver.length ≤ k →
      (p.run (List.replicate k .save)).file = p.file ++ encodeAll p.store.saver ∧
      (p.run (List.replicate k .save)).store.saver = [] := by
  induction k with
  | zero =>
    intro p h
    have hnil : p.store.saver = [] := List.length_eq_zero.1 (Nat.le_zero.1 h)
    simp [Process.run, hnil, encodeAll]
  | succ k ih =>
    intro p h
    rw [List.replicate_succ, Process.run_cons]
    cases hs : p.store.saver with
    | nil =>
      have hstep : p.step .save = p := by
        simp [Process.step, saveLoop, hs]
      rw [hstep]
      have := ih p (by rw [hs]; exact Nat.zero_le _)
      rwa [hs] at this
    | cons r rs =>
      obtain ⟨hf, hq, _⟩ := p.step_save r rs hs
      have hlen : (p.step .save).store.saver.length ≤ k := by
        rw [hq]
        rw [hs, List.length_cons] at h
        omega
      obtain ⟨h1, h2⟩ := ih (p.step .save) hlen
      refine ⟨?_, h2⟩
      rw [h1, hf, hq]
      simp [encodeAll]

theorem putAll_cons (s : URLStore) (u : String) (urls : List String) :
    putAll s (u :: urls) = putAll (s.Put u).1 urls := rfl

theorem putAll_saver (urls : List String) :
    ∀ (p : Process),
      (putAll p.store urls).saver = p.store.saver ++ succeeded p (urls.map Event.Put) := by
  induction urls with
  | nil => intro p; simp [putAll, succeeded]
  | cons u urls ih =>
    intro p
    have h := ih (p.step (.Put u))
    rw [putAll_cons]
    by_cases hk : genKey u ∈ p.store.urls
    · simpa [Process.step, succeeded, URLStore.Put_of_mem hk] using h
    · simpa [Process.step, succeeded, URLStore.Put_of_not_mem hk] using h

/-- C10: in a run of `Put` calls and writer iterations, the records that the writer
has appended to the log are the first records, as many as there were writer
iterations that found a record, of the list made of the records on the channel at
the start followed by the records `(genKey u, u)` of the `Put` calls that returned
nil, in call order; the rest of that list is on the channel, and enough further
writer iterations append the whole list. Without writer iterations the channel holds the
list. A writer iteration appends the oldest record of the channel and removes it;
a `Put` that fails sends nothing, a `Put` that succeeds sends its one record. -/
theorem log_order (p : Process) (evs : List Event) :
    (p.run evs).file =
      p.file ++ encodeAll ((p.store.saver ++ succeeded p evs).take (received p evs)) ∧
    (p.run evs).store.saver = (p.store.saver ++ succeeded p evs).drop (received p evs) ∧
    (∀ k, (p.store.saver ++ succeeded p evs).length ≤ k →
      (p.run (evs ++ List.replicate k .save)).file =
        p.file ++ encodeAll (p.store.saver ++ succeeded p evs) ∧
      (p.run (evs ++ List.replicate k .save)).store.saver = []) ∧
    (∀ urls : List String,
      (putAll p.store urls).saver = p.store.saver ++ succeeded p (urls.map Event.Put)) ∧
    (∀ (q : Process) (r : record) (rs : List record), q.store.saver = r :: rs →
      (q.step .save).file = q.file ++ JSON.Encode r ∧ (q.step .save).store.saver = rs) ∧
    (∀ (s : URLStore) (u : String), (s.Put u).2.2 ≠ none → (s.Put u).1.saver = s.saver) ∧
    (∀ (s : URLStore) (u : String), (s.Put u).2.2 = none →
      (s.Put u).1.saver = s.saver ++ [⟨genKey u, u⟩]) := by
  obtain ⟨hfile, hsaver⟩ := Process.run_queue evs p
  refine ⟨hfile, hsaver, ?_, fun urls => putAll_saver urls p, ?_, ?_, ?_⟩
  · intro k hk
    have hlen : (p.run evs).store.saver.length ≤ k := by
      rw [hsaver, List.length_drop]
      omega
    obtain ⟨h1, h2⟩ := Process.run_drain k (p.run evs) hlen
    rw [Process.run_append]
    refine ⟨?_, h2⟩
    rw [h1, hfile, hsaver, List.append_assoc, ← encodeAll_append, List.take_append_drop]
  · intro q r rs h
    exact ⟨(q.step_save r rs h).1, (q.step_save r rs h).2.1⟩
  · intro s u h
    have hk : genKey u ∈ s.urls := by
      by_contra hk
      exact h ((Put_error_eq_none_iff s u).2 hk)
    rw [URLStore.Put_of_mem hk]
  · intro s u h
    rw [URLStore.Put_of_not_mem ((Put_error_eq_none_iff s u).1 h)]

set_option maxRecDepth 100000 in
/-- Witness of `log_order`: on an empty store and an empty log, the URL `a` is put,
the writer runs, `a` is put again and refused, `b` is put. The log then holds the
record of `a` and the channel the record of `b`; after one more writer iteration
the log holds the records of `a` and `b`, in this order. -/
theorem log_order_witness :
    ((Process.mk URLStore.empty []).run [.Put "a", .save, .Put "a", .Put "b"]).file =
      encodeAll [⟨genKey "a", "a"⟩] ∧
    ((Process.mk URLStore.empty []).run [.Put "a", .save, .Put "a", .Put "b"]).store.saver =
      [⟨genKey "b", "b"⟩] ∧
    ((Process.mk URLStore.empty []).run [.Put "a", .save, .Put "a", .Put "b", .save]).file =
      encodeAll [⟨genKey "a", "a"⟩, ⟨genKey "b", "b"⟩] ∧
    ((Process.mk URLStore.empty []).run
      [.Put "a", .save, .Put "a", .Put "b", .save]).store.saver = [] :=
  ⟨(log_order ⟨URLStore.empty, []⟩ [.Put "a", .save, .Put "a", .Put "b"]).1.trans
      (by decide),
    (log_order ⟨URLStore.empty, []⟩ [.Put "a", .save, .Put "a", .Put "b"]).2.1.trans
      (by decide),
    (log_order ⟨URLStore.empty, []⟩ [.Put "a", .save, .Put "a", .Put "b", .save]).1.trans
      (by decide),
    (log_order ⟨URLStore.empty, []⟩ [.Put "a", .save, .Put "a", .Put "b", .save]).2.1.trans
      (by decide)⟩

/-- Witness of `no_overwrite`: the key `k` keeps the URL `v` through a `Set` and a
`load` that offer another URL for it, and through the other operations. -/
theorem no_overwrite_witness :
    (URLStore.empty.Set "k" "v").1.urls.lookup "k" = some "v" ∧
    (runOps (URLStore.empty.Set "k" "v").1
      [.Set "k" "w", .Get "k", .Count, .load (JSON.Encode ⟨"k", "x"⟩), .Set "j" "w"]).Get "k"
      = "v" :=
  ⟨by decide, (no_overwrite (URLStore.empty.Set "k" "v").1 "k" "v"
    [.Set "k" "w", .Get "k", .Count, .load (JSON.Encode ⟨"k", "x"⟩), .Set "j" "w"]
    (by decide)).2.2⟩

/-- Witness of `load_spec`: a log of two records and then a character that starts
no value; `load` returns the syntax error and the map holds both records. -/
theorem load_spec_witness :
    (decodeStream (encodeAll [⟨"k", "v"⟩, ⟨"j", "w"⟩] ++ ['x'])) =
      ([⟨"k", "v"⟩, ⟨"j", "w"⟩], GoError.SyntaxError) ∧
    (load URLStore.empty (encodeAll [⟨"k", "v"⟩, ⟨"j", "w"⟩] ++ ['x'])).2
      = some GoError.SyntaxError ∧
    (load URLStore.empty (encodeAll [⟨"k", "v"⟩, ⟨"j", "w"⟩] ++ ['x'])).1
      = (decodeStream (encodeAll [⟨"k", "v"⟩, ⟨"j", "w"⟩] ++ ['x'])).1.foldl setRecord
        URLStore.empty ∧
    (load URLStore.empty (encodeAll [⟨"k", "v"⟩, ⟨"j", "w"⟩] ++ ['x'])).1.urls.lookup "j"
      = some "w" :=
  ⟨by decide,
    ((load_spec URLStore.empty (encodeAll [⟨"k", "v"⟩, ⟨"j", "w"⟩] ++ ['x'])).2.2.1
      (by decide)).trans (by decide),
    (load_spec URLStore.empty (encodeAll [⟨"k", "v"⟩, ⟨"j", "w"⟩] ++ ['x'])).1,
    ((load_spec URLStore.empty (encodeAll [⟨"k", "v"⟩, ⟨"j", "w"⟩] ++ ['x'])).2.2.2.2.1
      "j").trans (by decide)⟩

/-- C9 fails on a log with two records of one key and then a character that starts
no value: both records decode before the failure and are offered to `Set`, `load`
returns the syntax error, and the second record is not in the map, which holds the
URL of the first. -/
theorem load_spec_counterexample :
    decodeStream
        "\x7b\"Key\":\"k\",\"URL\":\"a\"\x7d\n\x7b\"Key\":\"k\",\"URL\":\"b\"\x7d\nx".data =
      ([⟨"k", "a"⟩, ⟨"k", "b"⟩], GoError.SyntaxError) ∧
    (load URLStore.empty
        "\x7b\"Key\":\"k\",\"URL\":\"a\"\x7d\n\x7b\"Key\":\"k\",\"URL\":\"b\"\x7d\nx".data).2 =
      some GoError.SyntaxError ∧
    (load URLStore.empty
        "\x7b\"Key\":\"k\",\"URL\":\"a\"\x7d\n\x7b\"Key\":\"k\",\"URL\":\"b\"\x7d\nx".data).1.urls.lookup
        "k" = some "a" ∧
    (load URLStore.empty
        "\x7b\"Key\":\"k\",\"URL\":\"a\"\x7d\n\x7b\"Key\":\"k\",\"URL\":\"b\"\x7d\nx".data).1.urls.lookup
        "k" ≠ some "b" := by
  decide

end URLShortener
